import Mathlib

/-
Shallow embedding of src/financial_news_scraper.py (TomMcIver/WebScraper).

Text is modelled as `List Char` (ASCII is the domain of interest; the
character classes of Python's `re` module and `str.lower`/`str.strip`
are modelled over ASCII).  SQLite TEXT comparison (BINARY collation,
i.e. memcmp order) and Python string comparison are both modelled by
`lexCmp` below.  Python `datetime` values (always UTC-aware in this
program) are modelled by the `DT` structure, compared via `toSec`.
-/

abbrev Str := List Char

/-- Byte-order (memcmp) comparison of two character lists; this is how
SQLite's BINARY collation compares the stored TEXT timestamps and how
Python compares strings (over ASCII). -/
def lexCmp : Str → Str → Ordering
  | [], [] => .eq
  | [], _ :: _ => .lt
  | _ :: _, [] => .gt
  | a :: as, b :: bs =>
    if a.toNat < b.toNat then .lt
    else if b.toNat < a.toNat then .gt
    else lexCmp as bs

def lexLe (a b : Str) : Bool := lexCmp a b != Ordering.gt

def lexLt (a b : Str) : Bool := lexCmp a b == Ordering.lt

/-- `startsWithStr s p` : `p` is a prefix of `s`. -/
def startsWithStr : Str → Str → Bool
  | _, [] => true
  | [], _ :: _ => false
  | c :: cs, p :: ps => (c == p) && startsWithStr cs ps

/-- `containsSeq s p` : `p` occurs contiguously inside `s` (Python's
`p in s`). -/
def containsSeq : Str → Str → Bool
  | [], p => p.isEmpty
  | c :: cs, p => startsWithStr (c :: cs) p || containsSeq cs p

/-- Python `str.lower` over ASCII (`Char.toLower` lowers exactly A–Z). -/
def lowerStr (s : Str) : Str := s.map Char.toLower

/-- Whitespace class of Python's `str.strip` / `re` `\s` over ASCII. -/
def isPySpace (c : Char) : Bool :=
  c == ' ' || c == '\t' || c == '\n' || c == '\r' || c.toNat == 11 || c.toNat == 12

/-- Python `str.strip()`. -/
def stripStr (s : Str) : Str :=
  ((s.dropWhile isPySpace).reverse.dropWhile isPySpace).reverse

def digitVal (c : Char) : Nat := c.toNat - 48

/-- Numeric value of a digit run (Python `int` on the matched group). -/
def natOfDigits (ds : Str) : Nat := ds.foldl (fun acc c => acc * 10 + digitVal c) 0

/- ---------------------------------------------------------------------
UTC date-times.  The program keeps every `datetime` UTC-aware, writes
them with `strftime('%Y-%m-%d %H:%M:%S')` and compares them either as
`datetime` objects (publish-date filtering) or as stored strings
(SQLite queries).
--------------------------------------------------------------------- -/

structure DT where
  y : Nat
  mo : Nat
  d : Nat
  h : Nat
  mi : Nat
  s : Nat
deriving DecidableEq, Repr

/-- Gregorian leap-year rule (Python `calendar`/`datetime`). -/
def isLeap (y : Nat) : Bool := (y % 4 == 0 && y % 100 != 0) || (y % 400 == 0)

def daysInMonth (y mo : Nat) : Nat :=
  match mo with
  | 2 => if isLeap y then 29 else 28
  | 4 => 30 | 6 => 30 | 9 => 30 | 11 => 30
  | _ => 31

/-- Days in year `y` strictly before month `mo`. -/
def daysBeforeMonth (y mo : Nat) : Nat :=
  let f : Nat := if isLeap y then 1 else 0
  match mo with
  | 1 => 0 | 2 => 31 | 3 => 59 + f | 4 => 90 + f | 5 => 120 + f | 6 => 151 + f
  | 7 => 181 + f | 8 => 212 + f | 9 => 243 + f | 10 => 273 + f | 11 => 304 + f
  | _ => 334 + f

def daysInYear (y : Nat) : Nat := if isLeap y then 366 else 365

/-- Leap years in `[1, y-1]`. -/
def leapsBefore (y : Nat) : Nat := (y - 1) / 4 - (y - 1) / 100 + (y - 1) / 400

/-- Days strictly before January 1 of year `y` in the proleptic Gregorian
calendar (`date(y,1,1).toordinal() - 1`). -/
def daysBeforeYear (y : Nat) : Nat := 365 * (y - 1) + leapsBefore y

/-- Seconds since the epoch 0001-01-01 00:00:00; `datetime` comparison of
two UTC-aware values coincides with comparison of this quantity. -/
def toSec (t : DT) : Nat :=
  ((daysBeforeYear t.y + daysBeforeMonth t.y t.mo + (t.d - 1)) * 24 + t.h) * 3600
    + t.mi * 60 + t.s

/-- Field validity of a `datetime` value. -/
def validDT (t : DT) : Bool :=
  1 ≤ t.y && t.y ≤ 9999 && 1 ≤ t.mo && t.mo ≤ 12 && 1 ≤ t.d
    && t.d ≤ daysInMonth t.y t.mo && t.h ≤ 23 && t.mi ≤ 59 && t.s ≤ 59

/-- `datetime` ≤ on UTC-aware values. -/
def dtLe (a b : DT) : Bool := toSec a ≤ toSec b

def digitChar (n : Nat) : Char :=
  match n with
  | 0 => '0' | 1 => '1' | 2 => '2' | 3 => '3' | 4 => '4'
  | 5 => '5' | 6 => '6' | 7 => '7' | 8 => '8' | _ => '9'

/-- Two-digit zero-padded decimal rendering (strftime `%m,%d,%H,%M,%S`). -/
def pad2 (n : Nat) : Str := [digitChar (n / 10), digitChar (n % 10)]

/-- Four-digit zero-padded decimal rendering (strftime `%Y`). -/
def pad4 (n : Nat) : Str := pad2 (n / 100) ++ pad2 (n % 100)

/-- `strftime('%Y-%m-%d %H:%M:%S')` on a UTC `datetime`. -/
def fmtDT (t : DT) : Str :=
  pad4 t.y ++ '-' :: (pad2 t.mo ++ '-' :: (pad2 t.d
    ++ ' ' :: (pad2 t.h ++ ':' :: (pad2 t.mi ++ ':' :: pad2 t.s))))

/- ---------------------------------------------------------------------
parse_relative_time (src lines 28–51): lowercase and strip the text,
search for the first occurrence of the regex `(\d+)\s*([mhdy])`, and on a
match subtract the corresponding duration from `now`; otherwise accept
"a few seconds ago" / "just now" as `now`; otherwise raise ValueError
(modelled as `none`).  `now` and results are in seconds (Int).
--------------------------------------------------------------------- -/

def isUnitChar (c : Char) : Bool := c == 'm' || c == 'h' || c == 'd' || c == 'y'

/-- After the digit run and whitespace, the regex requires a `[mhdy]`
letter; `n` is the numeric value of the digit run. -/
def checkUnit (r : Str) (n : Nat) : Option (Nat × Char) :=
  match r with
  | u :: _ => if isUnitChar u then some (n, u) else none
  | [] => none

/-- Attempt of the regex `(\d+)\s*([mhdy])` anchored at the head of `s`:
a maximal digit run, then maximal whitespace, then a unit letter
(backtracking inside the run cannot help, since `[mhdy]` and `\s` match
no digit and `[mhdy]` matches no whitespace). -/
def matchAt (s : Str) : Option (Nat × Char) :=
  match s with
  | [] => none
  | c :: _ =>
    if c.isDigit then
      checkUnit ((s.dropWhile Char.isDigit).dropWhile isPySpace)
        (natOfDigits (s.takeWhile Char.isDigit))
    else none

/-- `re.search(r'(\d+)\s*([mhdy])', s)`: first position whose anchored
attempt succeeds. -/
def findRel : Str → Option (Nat × Char)
  | [] => none
  | c :: cs =>
    match matchAt (c :: cs) with
    | some r => some r
    | none => findRel cs

/-- Duration, in seconds, of `n` units (`m`inutes, `h`ours, `d`ays, or
`y`ears as a 365-day approximation) — the `timedelta` subtracted by
`parse_relative_time`. -/
def relDurSec (n : Nat) (u : Char) : Int :=
  if u == 'm' then 60 * n
  else if u == 'h' then 3600 * n
  else if u == 'd' then 86400 * n
  else 365 * 86400 * n

/-- src lines 28–51. -/
def parse_relative_time (text : Str) (now : Int) : Option Int :=
  let t := stripStr (lowerStr text)
  match findRel t with
  | some (n, u) => some (now - relDurSec n u)
  | none =>
    if containsSeq t "a few seconds ago".data || containsSeq t "just now".data then
      some now
    else none

/-- Declarative statement that a text contains the relative pattern
`<digits><whitespace*><unit>` somewhere. -/
def HasRelPattern (cs : Str) : Prop :=
  ∃ pre ds ws u suf, cs = pre ++ (ds ++ (ws ++ u :: suf)) ∧ ds ≠ [] ∧
    (∀ c ∈ ds, c.isDigit = true) ∧ (∀ c ∈ ws, isPySpace c = true) ∧ isUnitChar u = true

/- ---------------------------------------------------------------------
categorize_article (src lines 293–310): score each fixed category by the
number of its keyword phrases occurring in the lower-cased
`title + " " + content`; keep only positive scores (the dict), and take
Python's `max(dict, key=dict.get)` — the first key, in insertion order,
attaining the maximal score — falling back to 'general' when the dict is
empty.
--------------------------------------------------------------------- -/

def categories : List (Str × List Str) :=
  [("stocks".data,
     ["stock".data, "stocks".data, "equities".data, "nasdaq".data,
      "dow jones".data, "nyse".data, "s&p".data]),
   ("cryptocurrency".data,
     ["bitcoin".data, "ethereum".data, "crypto".data, "blockchain".data,
      "token".data, "cryptocurrency".data]),
   ("economy".data,
     ["economy".data, "gdp".data, "inflation".data, "recession".data,
      "economic growth".data, "fed".data, "federal reserve".data]),
   ("markets".data,
     ["market".data, "trading".data, "trader".data, "bulls".data,
      "bears".data, "rally".data, "correction".data]),
   ("business".data,
     ["company".data, "earnings".data, "revenue".data, "profit".data,
      "ceo".data, "startup".data, "merger".data, "acquisition".data]),
   ("personal_finance".data,
     ["investing".data, "retirement".data, "mortgage".data, "loan".data,
      "credit".data, "debt".data, "saving".data]),
   ("real_estate".data,
     ["housing".data, "real estate".data, "property".data, "mortgage".data,
      "commercial real estate".data])]

/-- `sum(1 for keyword in keywords if keyword.lower() in full_text)`. -/
def catScore (full_text : Str) (kws : List Str) : Nat :=
  (kws.filter (fun k => containsSeq full_text (lowerStr k))).length

/-- Python `max(xs, key=score)` over a nonempty association list: keep the
first entry, replacing only on a strictly greater score; `[]` falls back
to `general`. -/
def pickMax : List (Str × Nat) → Str
  | [] => "general".data
  | p :: rest => (rest.foldl (fun best q => if q.2 > best.2 then q else best) p).1

/-- src lines 293–310 (parameter order as in the source: content, title). -/
def categorize_article (content title : Str) : Str :=
  let full_text := lowerStr (title ++ ' ' :: content)
  let scored := (categories.map (fun p => (p.1, catScore full_text p.2))).filter
    (fun p => p.2 > 0)
  pickMax scored

/- ---------------------------------------------------------------------
extract_article_links (src lines 129–152).  A fetched listing document is
modelled as the list of `href` attribute values of its anchors, in
document order; `none` models a fetch failure of `get_soup`.
--------------------------------------------------------------------- -/

def linkKeywords : List Str :=
  ["/article/".data, "/news/".data, "/story/".data,
   "/2023/".data, "/2024/".data, "/2025/".data]

def imageExts : List Str := [".jpg".data, ".png".data, ".pdf".data]

def endsWithStr (s p : Str) : Bool := startsWithStr s.reverse p.reverse

def splitAtColon : Str → Option (Str × Str)
  | [] => none
  | c :: cs =>
    if c == ':' then some ([], cs)
    else
      match splitAtColon cs with
      | some (a, b) => some (c :: a, b)
      | none => none

def isSchemeChar (c : Char) : Bool := c.isAlphanum || c == '+' || c == '-' || c == '.'

def validScheme (s : Str) : Bool :=
  match s with
  | [] => false
  | c :: cs => c.isAlpha && cs.all isSchemeChar

def netlocOf (rest : Str) : Str :=
  if startsWithStr rest "//".data then
    (rest.drop 2).takeWhile (fun c => !(c == '/' || c == '?' || c == '#'))
  else []

/-- `f"{urlparse(u).scheme}://{urlparse(u).netloc}"` (src lines 142–143). -/
def schemeHost (src : Str) : Str :=
  match splitAtColon src with
  | some (sch, rest) =>
    if validScheme sch then lowerStr sch ++ "://".data ++ netlocOf rest
    else "://".data ++ netlocOf src
  | none => "://".data ++ netlocOf src

/-- src lines 140–144: only references beginning with `/` are resolved. -/
def resolveHref (source_url href : Str) : Str :=
  if startsWithStr href "/".data then schemeHost source_url ++ href else href

/-- src lines 129–152. -/
def extract_article_links (doc : Option (List Str)) (source_url : Str) : List Str :=
  match doc with
  | none => []
  | some hrefs =>
    hrefs.foldl (fun links href0 =>
      let href := resolveHref source_url href0
      if linkKeywords.any (fun k => containsSeq (lowerStr href) k) then
        if !(links.contains href) && !(imageExts.any (fun e => endsWithStr href e)) then
          links ++ [href]
        else links
      else links) []

/- ---------------------------------------------------------------------
Summary derivation (src lines 211–214), over the list of paragraph texts
of the chosen content container.
--------------------------------------------------------------------- -/

def joinStrs (sep : Str) : List Str → Str
  | [] => []
  | [p] => p
  | p :: q :: ps => p ++ sep ++ joinStrs sep (q :: ps)

/-- `'\n\n'.join([p.text.strip() for p in paragraphs[:2]])`, then the
500-character cap with ellipsis (src lines 211–214). -/
def summaryFrom (paragraphs : List Str) : Str :=
  let summary := joinStrs "\n\n".data ((paragraphs.take 2).map stripStr)
  if summary.length > 500 then summary.take 497 ++ "...".data else summary

/- ---------------------------------------------------------------------
The articles table and process_article (src lines 234–291).  The article
extraction result (network-dependent) enters as an oracle `Option Draft`;
`storageOk` models whether the INSERT statement raises.
--------------------------------------------------------------------- -/

structure Row where
  title : Str
  url : Str
  source : Str
  author : Str
  publish_date : Str
  content : Str
  summary : Str
  keywords : Str
  retrieved_date : Str
  category : Str
deriving DecidableEq, Repr

/-- The `article_data` dict returned by `extract_article_content`. -/
structure Draft where
  title : Str
  author : Str
  publish_date : DT
  content : Str
  summary : Str
  keywords : Str
deriving DecidableEq, Repr

/-- The row inserted by src lines 262–281. -/
def mkRow (url source : Str) (a : Draft) (now : DT) : Row :=
  { title := a.title, url := url, source := source, author := a.author,
    publish_date := fmtDT a.publish_date, content := a.content,
    summary := a.summary, keywords := a.keywords, retrieved_date := fmtDT now,
    category := categorize_article a.content a.title }

/-- The date filter of src lines 255–260: with an active range, keep only
`start <= publish_date <= end` (`datetime` comparison, both ends
inclusive); with no range, keep everything. -/
def inRangeOpt (date_range : Option (DT × DT)) (a : Draft) : Bool :=
  match date_range with
  | some (s, e) => dtLe s a.publish_date && dtLe a.publish_date e
  | none => true

/-- src lines 234–291: duplicate-URL check, extraction, optional date-range
filter, insert; every failure path returns `False` with the table
untouched. -/
def process_article (st : List Row) (url source : Str) (extracted : Option Draft)
    (date_range : Option (DT × DT)) (storageOk : Bool) (now : DT) : Bool × List Row :=
  if st.any (fun r => r.url == url) then (false, st)
  else
    match extracted with
    | none => (false, st)
    | some a =>
      if !(inRangeOpt date_range a) then (false, st)
      else if storageOk then (true, st ++ [mkRow url source a now])
      else (false, st)

/- ---------------------------------------------------------------------
strptime('%Y-%m-%d') (used by get_articles_by_date_range, src 606–628):
exactly four year digits, one or two month digits in 1..12, one or two
day digits, and the day validated against the month's length.
--------------------------------------------------------------------- -/

def splitOnChar (c : Char) : Str → List Str
  | [] => [[]]
  | x :: xs =>
    if x == c then [] :: splitOnChar c xs
    else
      match splitOnChar c xs with
      | [] => [[x]]
      | p :: ps => (x :: p) :: ps

def parseDate (s : Str) : Option (Nat × Nat × Nat) :=
  match splitOnChar '-' s with
  | [ys, ms, ds] =>
    if ys.length == 4 && ys.all Char.isDigit
        && 1 ≤ ms.length && ms.length ≤ 2 && ms.all Char.isDigit
        && 1 ≤ ds.length && ds.length ≤ 2 && ds.all Char.isDigit then
      let y := natOfDigits ys
      let m := natOfDigits ms
      let d := natOfDigits ds
      if 1 ≤ y && 1 ≤ m && m ≤ 12 && 1 ≤ d && d ≤ daysInMonth y m then
        some (y, m, d)
      else none
    else none
  | _ => none

/-- `ORDER BY publish_date DESC` comparison (string order on stored text). -/
def pubDesc (a b : Row) : Bool := lexLe b.publish_date a.publish_date

def insertDesc (r : Row) : List Row → List Row
  | [] => [r]
  | x :: xs => if pubDesc r x then r :: x :: xs else x :: insertDesc r xs

/-- The sort performed by `ORDER BY publish_date DESC`. -/
def sortPubDesc : List Row → List Row
  | [] => []
  | x :: xs => insertDesc x (sortPubDesc xs)

/-- src lines 606–628: parse both date arguments (ValueError yields `[]`),
normalize the end to 23:59:59, format both, and filter/order the table by
string comparison on publish_date. -/
def get_articles_by_date_range (st : List Row) (start_date end_date : Str) : List Row :=
  match parseDate start_date, parseDate end_date with
  | some (ys, ms, ds), some (ye, me, de) =>
    let startStr := fmtDT ⟨ys, ms, ds, 0, 0, 0⟩
    let endStr := fmtDT ⟨ye, me, de, 23, 59, 59⟩
    sortPubDesc (st.filter (fun r => lexLe startStr r.publish_date
      && lexLe r.publish_date endStr))
  | _, _ => []

/- ---------------------------------------------------------------------
search_by_term (src lines 558–576) over a database state of both tables.
SQLite `LIKE` is modelled with its `%`/`_` wildcards and ASCII
case-folding.
--------------------------------------------------------------------- -/

structure DB where
  articles : List Row
  search_terms : List (Str × Str)
deriving DecidableEq, Repr

def charLikeEq (p c : Char) : Bool := p.toLower == c.toLower

/-- SQLite `LIKE`: `%` matches any sequence, `_` any single character,
plain characters match ASCII case-insensitively. -/
def likeMatch : Str → Str → Bool
  | [], s => s.isEmpty
  | p :: ps, s =>
    if p == '%' then
      likeMatch ps s ||
        (match s with
         | [] => false
         | _ :: s' => likeMatch (p :: ps) s')
    else
      match s with
      | [] => false
      | c :: s' => (p == '_' || charLikeEq p c) && likeMatch ps s'
termination_by p s => (s.length, p.length)

/-- The bound pattern `f'%{term}%'`. -/
def termPat (term : Str) : Str := '%' :: (term ++ ['%'])

def rowMatchesTerm (term : Str) (r : Row) : Bool :=
  likeMatch (termPat term) r.title || likeMatch (termPat term) r.content
    || likeMatch (termPat term) r.summary

/-- `INSERT OR REPLACE INTO search_terms` keyed on the UNIQUE `term`. -/
def upsertTerm (ts : List (Str × Str)) (term now : Str) : List (Str × Str) :=
  (ts.filter (fun p => !(p.1 == term))) ++ [(term, now)]

def lookupTerm (ts : List (Str × Str)) (term : Str) : Option Str :=
  match ts.find? (fun p => p.1 == term) with
  | some p => some p.2
  | none => none

/-- src lines 558–576: record the term with the current UTC time, then
select matching articles ordered by publish_date descending. -/
def search_by_term (db : DB) (term : Str) (now : DT) : DB × List Row :=
  ({ articles := db.articles,
     search_terms := upsertTerm db.search_terms term (fmtDT now) },
   sortPubDesc (db.articles.filter (rowMatchesTerm term)))

/-- Shape check for the fixed zero-padded timestamp format
`YYYY-MM-DD HH:MM:SS`. -/
def isCanonicalTs (s : Str) : Bool :=
  match s with
  | [y1, y2, y3, y4, c1, m1, m2, c2, d1, d2, c3, h1, h2, c4, i1, i2, c5, s1, s2] =>
    [y1, y2, y3, y4, m1, m2, d1, d2, h1, h2, i1, i2, s1, s2].all Char.isDigit
      && c1 == '-' && c2 == '-' && c3 == ' ' && c4 == ':' && c5 == ':'
  | _ => false

/- ---------------------------------------------------------------------
Lemmas about the byte-order comparison `lexCmp`.
--------------------------------------------------------------------- -/

theorem charToNat_inj {a b : Char} (h : a.toNat = b.toNat) : a = b :=
  Char.ext (UInt32.ext h)

theorem lexCmp_eq_iff (a b : Str) : lexCmp a b = Ordering.eq ↔ a = b := by
  induction a generalizing b with
  | nil => cases b <;> simp [lexCmp]
  | cons x xs ih =>
    cases b with
    | nil => simp [lexCmp]
    | cons y ys =>
      simp only [lexCmp]
      split_ifs with h1 h2
      · constructor
        · intro h; exact absurd h (by decide)
        · intro h; injection h with hx _; subst hx; omega
      · constructor
        · intro h; exact absurd h (by decide)
        · intro h; injection h with hx _; subst hx; omega
      · have hxy : x = y := charToNat_inj (by omega)
        subst hxy
        rw [ih]
        simp

theorem lexCmp_swap (a b : Str) : lexCmp b a = (lexCmp a b).swap := by
  induction a generalizing b with
  | nil => cases b <;> simp [lexCmp, Ordering.swap]
  | cons x xs ih =>
    cases b with
    | nil => simp [lexCmp, Ordering.swap]
    | cons y ys =>
      simp only [lexCmp]
      split_ifs <;> simp [Ordering.swap] <;> try omega
      exact ih ys

theorem lexCmp_self_ne_gt (a : Str) : lexCmp a a ≠ Ordering.gt := by
  induction a with
  | nil => simp [lexCmp]
  | cons x xs ih => simp [lexCmp, ih]

theorem lexCmp_trans_aux (a b c : Str) :
    lexCmp a b ≠ Ordering.gt → lexCmp b c ≠ Ordering.gt → lexCmp a c ≠ Ordering.gt := by
  induction a generalizing b c with
  | nil => cases c <;> simp [lexCmp]
  | cons x xs ih =>
    cases b with
    | nil => simp [lexCmp]
    | cons y ys =>
      cases c with
      | nil => simp [lexCmp]
      | cons z zs =>
        simp only [lexCmp]
        split_ifs <;> simp <;> try omega
        · intro h1 h2
          have hxy : x = y := charToNat_inj (by omega)
          have hyz : y = z := charToNat_inj (by omega)
          exact ih ys zs h1 h2

theorem bne_gt_iff (o : Ordering) : (o != Ordering.gt) = true ↔ o ≠ Ordering.gt := by
  cases o <;> decide

theorem lexLe_iff (a b : Str) : lexLe a b = true ↔ lexCmp a b ≠ Ordering.gt := by
  unfold lexLe
  exact bne_gt_iff _

theorem lexLe_trans (a b c : Str) (h1 : lexLe a b = true) (h2 : lexLe b c = true) :
    lexLe a c = true :=
  (lexLe_iff a c).mpr
    (lexCmp_trans_aux a b c ((lexLe_iff a b).mp h1) ((lexLe_iff b c).mp h2))

theorem lexLe_total (a b : Str) : lexLe a b = true ∨ lexLe b a = true := by
  unfold lexLe
  rw [lexCmp_swap a b]
  cases lexCmp a b <;> decide

theorem then_lt_iff (o1 o2 : Ordering) :
    o1.then o2 = Ordering.lt ↔ o1 = Ordering.lt ∨ (o1 = Ordering.eq ∧ o2 = Ordering.lt) := by
  cases o1 <;> simp [Ordering.then]

theorem then_eq_iff (o1 o2 : Ordering) :
    o1.then o2 = Ordering.eq ↔ o1 = Ordering.eq ∧ o2 = Ordering.eq := by
  cases o1 <;> simp [Ordering.then]

theorem lexCmp_append {a b : Str} (h : a.length = b.length) (u v : Str) :
    lexCmp (a ++ u) (b ++ v) = (lexCmp a b).then (lexCmp u v) := by
  induction a generalizing b with
  | nil =>
    cases b with
    | nil => simp [lexCmp, Ordering.then]
    | cons _ _ => simp at h
  | cons x xs ih =>
    cases b with
    | nil => simp at h
    | cons y ys =>
      simp only [List.cons_append, lexCmp]
      split_ifs
      · simp [Ordering.then]
      · simp [Ordering.then]
      · exact ih (by simpa using h)

theorem lexCmp_cons_same (c : Char) (u v : Str) :
    lexCmp (c :: u) (c :: v) = lexCmp u v := by
  simp [lexCmp]

/- ---------------------------------------------------------------------
Calendar arithmetic: the zero-padded timestamp format is ordered exactly
like the underlying instants.
--------------------------------------------------------------------- -/

theorem daysBeforeYear_succ (y : Nat) (h1 : 1 ≤ y) :
    daysBeforeYear (y + 1) = daysBeforeYear y + daysInYear y := by
  have hl : isLeap y = true ↔ (y % 4 = 0 ∧ y % 100 ≠ 0) ∨ y % 400 = 0 := by
    simp [isLeap]
  by_cases hp : (y % 4 = 0 ∧ y % 100 ≠ 0) ∨ y % 400 = 0
  · have hb : isLeap y = true := hl.mpr hp
    simp [daysBeforeYear, daysInYear, leapsBefore, hb]
    omega
  · have hb : isLeap y = false := by
      cases hq : isLeap y
      · rfl
      · exact absurd (hl.mp hq) hp
    simp [daysBeforeYear, daysInYear, leapsBefore, hb]
    omega

theorem daysBeforeYear_mono (y1 y2 : Nat) (h1 : 1 ≤ y1) (h : y1 < y2) :
    daysBeforeYear y1 + daysInYear y1 ≤ daysBeforeYear y2 := by
  induction y2 with
  | zero => omega
  | succ n ih =>
    rcases Nat.lt_or_ge y1 n with hlt | hge
    · have hn : 1 ≤ n := by omega
      calc daysBeforeYear y1 + daysInYear y1 ≤ daysBeforeYear n := ih hlt
        _ ≤ daysBeforeYear (n + 1) := by
              rw [daysBeforeYear_succ n hn]; omega
    · have heq : y1 = n := by omega
      subst heq
      rw [daysBeforeYear_succ y1 h1]

/-- `daysInMonth` with the leap flag abstracted, for finite checking. -/
def dimB (g : Bool) (mo : Nat) : Nat :=
  match mo with
  | 2 => if g then 29 else 28
  | 4 => 30 | 6 => 30 | 9 => 30 | 11 => 30
  | _ => 31

/-- `daysBeforeMonth` with the leap flag abstracted, for finite checking. -/
def dbmB (g : Bool) (mo : Nat) : Nat :=
  let f : Nat := if g then 1 else 0
  match mo with
  | 1 => 0 | 2 => 31 | 3 => 59 + f | 4 => 90 + f | 5 => 120 + f | 6 => 151 + f
  | 7 => 181 + f | 8 => 212 + f | 9 => 243 + f | 10 => 273 + f | 11 => 304 + f
  | _ => 334 + f

/-- `daysInYear` with the leap flag abstracted, for finite checking. -/
def diyB (g : Bool) : Nat := if g then 366 else 365

theorem dim_eq (y mo : Nat) : daysInMonth y mo = dimB (isLeap y) mo := rfl

theorem dbm_eq (y mo : Nat) : daysBeforeMonth y mo = dbmB (isLeap y) mo := rfl

theorem diy_eq (y : Nat) : daysInYear y = diyB (isLeap y) := rfl

theorem dbm_step (y mo1 mo2 : Nat) (ha : 1 ≤ mo1) (hb : mo1 < mo2) (hc : mo2 ≤ 12) :
    daysBeforeMonth y mo1 + daysInMonth y mo1 ≤ daysBeforeMonth y mo2 := by
  have key : ∀ g : Bool, ∀ m1 < 13, ∀ m2 < 13, 1 ≤ m1 → m1 < m2 →
      dbmB g m1 + dimB g m1 ≤ dbmB g m2 := by decide
  rw [dbm_eq, dim_eq, dbm_eq]
  exact key (isLeap y) mo1 (by omega) mo2 (by omega) ha hb

theorem daysInMonth_le31 (y mo : Nat) : daysInMonth y mo ≤ 31 := by
  unfold daysInMonth
  split
  · split_ifs <;> omega
  all_goals omega

theorem dayOfYear_lt (y mo d : Nat) (ha : 1 ≤ mo) (hb : mo ≤ 12) (hc : 1 ≤ d)
    (hd : d ≤ daysInMonth y mo) : daysBeforeMonth y mo + (d - 1) < daysInYear y := by
  have key : ∀ g : Bool, ∀ m < 13, ∀ e < 32, 1 ≤ m → 1 ≤ e → e ≤ dimB g m →
      dbmB g m + (e - 1) < diyB g := by decide
  have hd31 : d ≤ 31 := le_trans hd (daysInMonth_le31 y mo)
  rw [dbm_eq, diy_eq]
  rw [dim_eq] at hd
  exact key (isLeap y) mo (by omega) d (by omega) ha hc hd

theorem digitChar_toNat {n : Nat} (h : n < 10) : (digitChar n).toNat = 48 + n := by
  interval_cases n <;> rfl

theorem digitChar_isDigit (n : Nat) : (digitChar n).isDigit = true := by
  rcases n with _|_|_|_|_|_|_|_|_|n <;> rfl

theorem lexCmp_pad2_lt {m n : Nat} (hm : m < 100) (hn : n < 100) :
    (lexCmp (pad2 m) (pad2 n) = Ordering.lt ↔ m < n) := by
  have h1 : m / 10 < 10 := by omega
  have h2 : m % 10 < 10 := by omega
  have h3 : n / 10 < 10 := by omega
  have h4 : n % 10 < 10 := by omega
  simp only [pad2, lexCmp, digitChar_toNat h1, digitChar_toNat h2,
    digitChar_toNat h3, digitChar_toNat h4]
  split_ifs <;> simp <;> omega

theorem lexCmp_pad2_eq {m n : Nat} (hm : m < 100) (hn : n < 100) :
    (lexCmp (pad2 m) (pad2 n) = Ordering.eq ↔ m = n) := by
  have h1 : m / 10 < 10 := by omega
  have h2 : m % 10 < 10 := by omega
  have h3 : n / 10 < 10 := by omega
  have h4 : n % 10 < 10 := by omega
  simp only [pad2, lexCmp, digitChar_toNat h1, digitChar_toNat h2,
    digitChar_toNat h3, digitChar_toNat h4]
  split_ifs <;> simp <;> omega

theorem lexCmp_pad4_lt {m n : Nat} (hm : m < 10000) (hn : n < 10000) :
    (lexCmp (pad4 m) (pad4 n) = Ordering.lt ↔ m < n) := by
  have hm1 : m / 100 < 100 := by omega
  have hm2 : m % 100 < 100 := by omega
  have hn1 : n / 100 < 100 := by omega
  have hn2 : n % 100 < 100 := by omega
  rw [pad4, pad4, lexCmp_append (by simp [pad2]), then_lt_iff,
    lexCmp_pad2_lt hm1 hn1, lexCmp_pad2_eq hm1 hn1, lexCmp_pad2_lt hm2 hn2]
  omega

theorem lexCmp_pad4_eq {m n : Nat} (hm : m < 10000) (hn : n < 10000) :
    (lexCmp (pad4 m) (pad4 n) = Ordering.eq ↔ m = n) := by
  have hm1 : m / 100 < 100 := by omega
  have hm2 : m % 100 < 100 := by omega
  have hn1 : n / 100 < 100 := by omega
  have hn2 : n % 100 < 100 := by omega
  rw [pad4, pad4, lexCmp_append (by simp [pad2]), then_eq_iff,
    lexCmp_pad2_eq hm1 hn1, lexCmp_pad2_eq hm2 hn2]
  omega

/-- The timestamp comparison decomposes into a field-by-field chain. -/
theorem lexCmp_fmtDT (t1 t2 : DT) :
    lexCmp (fmtDT t1) (fmtDT t2) =
      (lexCmp (pad4 t1.y) (pad4 t2.y)).then
        ((lexCmp (pad2 t1.mo) (pad2 t2.mo)).then
          ((lexCmp (pad2 t1.d) (pad2 t2.d)).then
            ((lexCmp (pad2 t1.h) (pad2 t2.h)).then
              ((lexCmp (pad2 t1.mi) (pad2 t2.mi)).then
                (lexCmp (pad2 t1.s) (pad2 t2.s)))))) := by
  unfold fmtDT
  rw [lexCmp_append (by simp [pad4, pad2]), lexCmp_cons_same,
      lexCmp_append (by simp [pad2]), lexCmp_cons_same,
      lexCmp_append (by simp [pad2]), lexCmp_cons_same,
      lexCmp_append (by simp [pad2]), lexCmp_cons_same,
      lexCmp_append (by simp [pad2]), lexCmp_cons_same]

/-- Field-lexicographic strict order on date-times; for valid values this
is exactly chronological order. -/
def dtTupLt (a b : DT) : Prop :=
  a.y < b.y ∨ (a.y = b.y ∧ (a.mo < b.mo ∨ (a.mo = b.mo ∧ (a.d < b.d ∨ (a.d = b.d ∧
    (a.h < b.h ∨ (a.h = b.h ∧ (a.mi < b.mi ∨ (a.mi = b.mi ∧ a.s < b.s)))))))))

theorem validDT_fields {t : DT} (h : validDT t = true) :
    1 ≤ t.y ∧ t.y ≤ 9999 ∧ 1 ≤ t.mo ∧ t.mo ≤ 12 ∧ 1 ≤ t.d
      ∧ t.d ≤ daysInMonth t.y t.mo ∧ t.h ≤ 23 ∧ t.mi ≤ 59 ∧ t.s ≤ 59 := by
  simp only [validDT, Bool.and_eq_true, decide_eq_true_eq] at h
  exact ⟨h.1.1.1.1.1.1.1.1, h.1.1.1.1.1.1.1.2, h.1.1.1.1.1.1.2, h.1.1.1.1.1.2,
    h.1.1.1.1.2, h.1.1.1.2, h.1.1.2, h.1.2, h.2⟩

theorem fmt_lt_iff {t1 t2 : DT} (hv1 : validDT t1 = true) (hv2 : validDT t2 = true) :
    (lexCmp (fmtDT t1) (fmtDT t2) = Ordering.lt ↔ dtTupLt t1 t2) := by
  obtain ⟨a1, b1, c1, d1, e1, f1, g1, i1, j1⟩ := validDT_fields hv1
  obtain ⟨a2, b2, c2, d2, e2, f2, g2, i2, j2⟩ := validDT_fields hv2
  have hdm1 := daysInMonth_le31 t1.y t1.mo
  have hdm2 := daysInMonth_le31 t2.y t2.mo
  rw [lexCmp_fmtDT, then_lt_iff, lexCmp_pad4_lt (by omega) (by omega),
    lexCmp_pad4_eq (by omega) (by omega), then_lt_iff,
    lexCmp_pad2_lt (m := t1.mo) (by omega) (by omega),
    lexCmp_pad2_eq (m := t1.mo) (by omega) (by omega), then_lt_iff,
    lexCmp_pad2_lt (m := t1.d) (by omega) (by omega),
    lexCmp_pad2_eq (m := t1.d) (by omega) (by omega), then_lt_iff,
    lexCmp_pad2_lt (m := t1.h) (by omega) (by omega),
    lexCmp_pad2_eq (m := t1.h) (by omega) (by omega), then_lt_iff,
    lexCmp_pad2_lt (m := t1.mi) (by omega) (by omega),
    lexCmp_pad2_eq (m := t1.mi) (by omega) (by omega),
    lexCmp_pad2_lt (m := t1.s) (by omega) (by omega)]
  exact Iff.rfl

theorem fmt_eq_iff {t1 t2 : DT} (hv1 : validDT t1 = true) (hv2 : validDT t2 = true) :
    (lexCmp (fmtDT t1) (fmtDT t2) = Ordering.eq ↔ t1 = t2) := by
  obtain ⟨a1, b1, c1, d1, e1, f1, g1, i1, j1⟩ := validDT_fields hv1
  obtain ⟨a2, b2, c2, d2, e2, f2, g2, i2, j2⟩ := validDT_fields hv2
  have hdm1 := daysInMonth_le31 t1.y t1.mo
  have hdm2 := daysInMonth_le31 t2.y t2.mo
  rw [lexCmp_fmtDT, then_eq_iff, then_eq_iff, then_eq_iff, then_eq_iff, then_eq_iff,
    lexCmp_pad4_eq (by omega) (by omega),
    lexCmp_pad2_eq (m := t1.mo) (by omega) (by omega),
    lexCmp_pad2_eq (m := t1.d) (by omega) (by omega),
    lexCmp_pad2_eq (m := t1.h) (by omega) (by omega),
    lexCmp_pad2_eq (m := t1.mi) (by omega) (by omega),
    lexCmp_pad2_eq (m := t1.s) (by omega) (by omega)]
  obtain ⟨y1, mo1, dd1, hh1, mm1, ss1⟩ := t1
  obtain ⟨y2, mo2, dd2, hh2, mm2, ss2⟩ := t2
  simp [DT.mk.injEq, and_assoc]

theorem toSec_lt_of_dtTupLt {t1 t2 : DT} (hv1 : validDT t1 = true)
    (hv2 : validDT t2 = true) (h : dtTupLt t1 t2) : toSec t1 < toSec t2 := by
  obtain ⟨a1, b1, c1, d1, e1, f1, g1, i1, j1⟩ := validDT_fields hv1
  obtain ⟨a2, b2, c2, d2, e2, f2, g2, i2, j2⟩ := validDT_fields hv2
  unfold toSec
  rcases h with hy | ⟨hy, h⟩
  · have hstep := daysBeforeYear_mono t1.y t2.y a1 hy
    have hlt := dayOfYear_lt t1.y t1.mo t1.d c1 d1 e1 f1
    omega
  · rcases h with hmo | ⟨hmo, h⟩
    · have hstep := dbm_step t1.y t1.mo t2.mo c1 hmo d2
      rw [hy] at hstep f1 ⊢
      omega
    · rcases h with hd | ⟨hd, h⟩
      · rw [hy, hmo]
        omega
      · rcases h with hh | ⟨hh, h⟩
        · rw [hy, hmo, hd]
          omega
        · rcases h with hmi | ⟨hmi, hs⟩
          · rw [hy, hmo, hd, hh]
            omega
          · rw [hy, hmo, hd, hh, hmi]
            omega

/-- The central format/order lemma: for valid date-times the stored
zero-padded strings compare (byte order) exactly as the instants do. -/
theorem fmt_le_iff {t1 t2 : DT} (hv1 : validDT t1 = true) (hv2 : validDT t2 = true) :
    (lexLe (fmtDT t1) (fmtDT t2) = true ↔ toSec t1 ≤ toSec t2) := by
  rw [lexLe_iff]
  constructor
  · intro h
    rcases ho : lexCmp (fmtDT t1) (fmtDT t2) with _ | _ | _
    · exact le_of_lt (toSec_lt_of_dtTupLt hv1 hv2 ((fmt_lt_iff hv1 hv2).mp ho))
    · rw [(fmt_eq_iff hv1 hv2).mp ho]
    · exact absurd ho h
  · intro hsec hgt
    have hswap : lexCmp (fmtDT t2) (fmtDT t1) = Ordering.lt := by
      rw [lexCmp_swap, hgt]
      rfl
    have := toSec_lt_of_dtTupLt hv2 hv1 ((fmt_lt_iff hv2 hv1).mp hswap)
    omega

/-- Every formatted timestamp has the fixed zero-padded 19-character shape. -/
theorem fmt_isCanonical (t : DT) : isCanonicalTs (fmtDT t) = true := by
  simp [fmtDT, pad4, pad2, isCanonicalTs, digitChar_isDigit]

/- ---------------------------------------------------------------------
The relative-time regex search: soundness and completeness of `findRel`
against the declarative pattern `HasRelPattern`.
--------------------------------------------------------------------- -/

theorem isDigit_toNat {c : Char} (h : c.isDigit = true) :
    48 ≤ c.toNat ∧ c.toNat ≤ 57 := by
  simp [Char.isDigit] at h
  exact h

theorem space_not_digit {c : Char} (h : isPySpace c = true) : c.isDigit = false := by
  simp only [isPySpace, Bool.or_eq_true, beq_iff_eq] at h
  rcases h with ((((rfl | rfl) | rfl) | rfl) | h11) | h12
  · decide
  · decide
  · decide
  · decide
  · cases hd : c.isDigit
    · rfl
    · obtain ⟨hb, _⟩ := isDigit_toNat hd
      omega
  · cases hd : c.isDigit
    · rfl
    · obtain ⟨hb, _⟩ := isDigit_toNat hd
      omega

theorem unit_cases {u : Char} (h : isUnitChar u = true) :
    u = 'm' ∨ u = 'h' ∨ u = 'd' ∨ u = 'y' := by
  simp only [isUnitChar, Bool.or_eq_true, beq_iff_eq] at h
  tauto

theorem unit_not_digit {u : Char} (h : isUnitChar u = true) : u.isDigit = false := by
  rcases unit_cases h with rfl | rfl | rfl | rfl <;> decide

theorem unit_not_space {u : Char} (h : isUnitChar u = true) : isPySpace u = false := by
  rcases unit_cases h with rfl | rfl | rfl | rfl <;> decide

theorem takeWhile_append_of_all {p : Char → Bool} (l1 l2 : Str)
    (h1 : ∀ c ∈ l1, p c = true) :
    (l1 ++ l2).takeWhile p = l1 ++ l2.takeWhile p := by
  induction l1 with
  | nil => simp
  | cons x xs ih =>
    rw [List.cons_append, List.takeWhile_cons_of_pos (h1 x (by simp)), ih]
    · simp
    · intro c hc
      exact h1 c (by simp [hc])

theorem dropWhile_append_of_all {p : Char → Bool} (l1 l2 : Str)
    (h1 : ∀ c ∈ l1, p c = true) :
    (l1 ++ l2).dropWhile p = l2.dropWhile p := by
  induction l1 with
  | nil => simp
  | cons x xs ih =>
    rw [List.cons_append, List.dropWhile_cons_of_pos (h1 x (by simp)), ih]
    intro c hc
    exact h1 c (by simp [hc])

theorem checkUnit_cons (u : Char) (rest : Str) (n : Nat) :
    checkUnit (u :: rest) n = if isUnitChar u then some (n, u) else none := rfl

theorem matchAt_cons (c : Char) (cs : Str) :
    matchAt (c :: cs) =
      if c.isDigit then
        checkUnit (((c :: cs).dropWhile Char.isDigit).dropWhile isPySpace)
          (natOfDigits ((c :: cs).takeWhile Char.isDigit))
      else none := rfl

theorem findRel_cons (c : Char) (cs : Str) :
    findRel (c :: cs) =
      match matchAt (c :: cs) with
      | some r => some r
      | none => findRel cs := rfl

theorem findRel_cons_some {c : Char} {cs : Str} {r : Nat × Char}
    (h : matchAt (c :: cs) = some r) : findRel (c :: cs) = some r := by
  rw [findRel_cons, h]

theorem findRel_cons_none {c : Char} {cs : Str} (h : matchAt (c :: cs) = none) :
    findRel (c :: cs) = findRel cs := by
  rw [findRel_cons, h]

theorem matchAt_sound {s : Str} {n : Nat} {u : Char} (h : matchAt s = some (n, u)) :
    ∃ ds ws suf, s = ds ++ (ws ++ u :: suf) ∧ ds ≠ [] ∧ (∀ c ∈ ds, c.isDigit = true)
      ∧ (∀ c ∈ ws, isPySpace c = true) ∧ isUnitChar u = true ∧ n = natOfDigits ds := by
  cases s with
  | nil => simp [matchAt] at h
  | cons c cs =>
    rw [matchAt_cons] at h
    by_cases hc : c.isDigit = true
    · rw [if_pos hc] at h
      rcases hr2 : (((c :: cs).dropWhile Char.isDigit).dropWhile isPySpace) with _ | ⟨u2, rest⟩
      · rw [hr2] at h
        simp [checkUnit] at h
      · rw [hr2, checkUnit_cons] at h
        by_cases hu : isUnitChar u2 = true
        · rw [if_pos hu] at h
          injection h with h'
          injection h' with hn hu2
          subst hn
          subst hu2
          refine ⟨(c :: cs).takeWhile Char.isDigit,
            ((c :: cs).dropWhile Char.isDigit).takeWhile isPySpace, rest, ?_, ?_, ?_, ?_, hu, rfl⟩
          · conv_lhs => rw [← List.takeWhile_append_dropWhile Char.isDigit (c :: cs)]
            congr 1
            conv_lhs =>
              rw [← List.takeWhile_append_dropWhile isPySpace ((c :: cs).dropWhile Char.isDigit)]
            rw [hr2]
          · rw [List.takeWhile_cons_of_pos hc]
            simp
          · intro x hx
            exact List.mem_takeWhile_imp hx
          · intro x hx
            exact List.mem_takeWhile_imp hx
        · rw [if_neg hu] at h
          simp at h
    · rw [if_neg hc] at h
      simp at h

theorem matchAt_complete {ds ws suf : Str} {u : Char} (hds : ds ≠ [])
    (hdig : ∀ c ∈ ds, c.isDigit = true) (hws : ∀ c ∈ ws, isPySpace c = true)
    (hu : isUnitChar u = true) :
    matchAt (ds ++ (ws ++ u :: suf)) = some (natOfDigits ds, u) := by
  obtain ⟨d, ds', rfl⟩ : ∃ d ds', ds = d :: ds' := by
    cases ds with
    | nil => exact absurd rfl hds
    | cons d ds' => exact ⟨d, ds', rfl⟩
  have hd : d.isDigit = true := hdig d (by simp)
  have hrest_take : (ws ++ u :: suf).takeWhile Char.isDigit = [] := by
    cases ws with
    | nil =>
      rw [List.nil_append]
      exact List.takeWhile_cons_of_neg (by simp [unit_not_digit hu])
    | cons w ws' =>
      rw [List.cons_append]
      exact List.takeWhile_cons_of_neg (by simp [space_not_digit (hws w (by simp))])
  have hrest_drop : (ws ++ u :: suf).dropWhile Char.isDigit = ws ++ u :: suf := by
    cases ws with
    | nil =>
      rw [List.nil_append]
      exact List.dropWhile_cons_of_neg (by simp [unit_not_digit hu])
    | cons w ws' =>
      rw [List.cons_append, List.dropWhile_cons_of_neg
        (by simp [space_not_digit (hws w (by simp))])]
  have hdrop2 : (ws ++ u :: suf).dropWhile isPySpace = u :: suf := by
    rw [dropWhile_append_of_all _ _ hws]
    exact List.dropWhile_cons_of_neg (by simp [unit_not_space hu])
  have h1 : (d :: (ds' ++ (ws ++ u :: suf))).dropWhile Char.isDigit = ws ++ u :: suf := by
    have ha := dropWhile_append_of_all (d :: ds') (ws ++ u :: suf) hdig
    rw [List.cons_append] at ha
    rw [ha, hrest_drop]
  have h2 : (d :: (ds' ++ (ws ++ u :: suf))).takeWhile Char.isDigit = d :: ds' := by
    have ha := takeWhile_append_of_all (d :: ds') (ws ++ u :: suf) hdig
    rw [List.cons_append] at ha
    rw [ha, hrest_take]
    simp
  rw [List.cons_append, matchAt_cons, if_pos hd, h1, hdrop2, h2, checkUnit_cons, if_pos hu]

theorem findRel_isSome_iff (cs : Str) : (findRel cs).isSome = true ↔ HasRelPattern cs := by
  constructor
  · intro h
    induction cs with
    | nil => simp [findRel] at h
    | cons c cs' ih =>
      rcases hm : matchAt (c :: cs') with _ | ⟨n, u⟩
      · rw [findRel_cons_none hm] at h
        obtain ⟨pre, ds, ws, u, suf, hEq, hne, hdig, hws, hu⟩ := ih h
        exact ⟨c :: pre, ds, ws, u, suf, by rw [hEq, List.cons_append], hne, hdig, hws, hu⟩
      · obtain ⟨ds, ws, suf, hEq, hne, hdig, hws, hu, hn⟩ := matchAt_sound hm
        exact ⟨[], ds, ws, u, suf, by rw [hEq, List.nil_append], hne, hdig, hws, hu⟩
  · rintro ⟨pre, ds, ws, u, suf, hEq, hne, hdig, hws, hu⟩
    subst hEq
    induction pre with
    | nil =>
      rw [List.nil_append]
      obtain ⟨d, ds', rfl⟩ : ∃ d ds', ds = d :: ds' := by
        cases ds with
        | nil => exact absurd rfl hne
        | cons d ds' => exact ⟨d, ds', rfl⟩
      rw [List.cons_append, findRel_cons_some (by
        rw [← List.cons_append]
        exact matchAt_complete hne hdig hws hu)]
      rfl
    | cons c pre' ih =>
      rw [List.cons_append]
      rcases hm : matchAt (c :: (pre' ++ (ds ++ (ws ++ u :: suf)))) with _ | r
      · rw [findRel_cons_none hm]
        exact ih
      · rw [findRel_cons_some hm]
        rfl

/- ---------------------------------------------------------------------
The categorizer's argmax: Python `max` keeps the first entry attaining
the maximal score.
--------------------------------------------------------------------- -/

theorem pickMax_mem_max (p : Str × Nat) (l : List (Str × Nat)) :
    (l.foldl (fun best q => if q.2 > best.2 then q else best) p) ∈ p :: l ∧
    ∀ q ∈ p :: l, q.2 ≤ (l.foldl (fun best q => if q.2 > best.2 then q else best) p).2 := by
  induction l generalizing p with
  | nil => simp
  | cons x xs ih =>
    simp only [List.foldl_cons]
    by_cases hx : x.2 > p.2
    · rw [if_pos hx]
      obtain ⟨h1, h2⟩ := ih x
      constructor
      · rcases List.mem_cons.mp h1 with h | h
        · simp [h]
        · simp [List.mem_cons, Or.inr (Or.inr h)]
      · intro r hr
        rcases List.mem_cons.mp hr with rfl | hr'
        · have := h2 x (by simp)
          omega
        · exact h2 r hr'
    · rw [if_neg hx]
      obtain ⟨h1, h2⟩ := ih p
      constructor
      · rcases List.mem_cons.mp h1 with h | h
        · simp [h]
        · simp [List.mem_cons, Or.inr (Or.inr h)]
      · intro r hr
        rcases List.mem_cons.mp hr with rfl | hr'
        · exact h2 r (by simp)
        · rcases List.mem_cons.mp hr' with rfl | hr''
          · have := h2 p (by simp)
            omega
          · exact h2 r (by simp [hr''])

/-- Characterization of `categorize_article`: either every category scores
zero and the result is `general`, or the result is a category with a
positive, maximal score. -/
theorem categorize_spec (content title : Str) :
    (categorize_article content title = "general".data ∧
       ∀ p ∈ categories, catScore (lowerStr (title ++ ' ' :: content)) p.2 = 0) ∨
    (∃ p ∈ categories, categorize_article content title = p.1 ∧
       0 < catScore (lowerStr (title ++ ' ' :: content)) p.2 ∧
       ∀ q ∈ categories, catScore (lowerStr (title ++ ' ' :: content)) q.2 ≤
         catScore (lowerStr (title ++ ' ' :: content)) p.2) := by
  have hunf : categorize_article content title =
      pickMax ((categories.map
        (fun p => (p.1, catScore (lowerStr (title ++ ' ' :: content)) p.2))).filter
          (fun p => p.2 > 0)) := rfl
  set ft := lowerStr (title ++ ' ' :: content) with hft
  rcases hs : ((categories.map (fun p => (p.1, catScore ft p.2))).filter
      (fun p => p.2 > 0)) with _ | ⟨p0, rest⟩
  · left
    constructor
    · rw [hunf, hs]
      rfl
    · intro p hp
      have hall := List.filter_eq_nil_iff.mp hs
      have hmem : (p.1, catScore ft p.2) ∈ categories.map
          (fun q => (q.1, catScore ft q.2)) := List.mem_map_of_mem _ hp
      have := hall _ hmem
      simpa using this
  · right
    obtain ⟨hmem, hmax⟩ := pickMax_mem_max p0 rest
    rw [← hs] at hmem hmax
    have hm_filter := List.mem_filter.mp hmem
    obtain ⟨q, hq, hqe⟩ := List.mem_map.mp hm_filter.1
    refine ⟨q, hq, ?_, ?_, ?_⟩
    · rw [hunf, hs]
      show (rest.foldl (fun best q => if q.2 > best.2 then q else best) p0).1 = q.1
      rw [← hqe]
    · have hpos : (rest.foldl (fun best q => if q.2 > best.2 then q else best) p0).2 > 0 := by
        simpa using hm_filter.2
      rw [← hqe] at hpos
      exact hpos
    · intro q2 hq2
      by_cases h0 : catScore ft q2.2 > 0
      · have hmem2 : (q2.1, catScore ft q2.2) ∈ ((categories.map
            (fun p => (p.1, catScore ft p.2))).filter (fun p => p.2 > 0)) := by
          rw [List.mem_filter]
          exact ⟨List.mem_map_of_mem _ hq2, by simpa using h0⟩
        have := hmax _ hmem2
        rw [← hqe] at this
        exact this
      · have hle : catScore ft q2.2 = 0 := by omega
        rw [hle]
        exact Nat.zero_le _

/- ---------------------------------------------------------------------
Link extraction: characterization of the filtering/dedup fold.
--------------------------------------------------------------------- -/

/-- The keep-condition of src lines 147–148, applied to the (possibly
resolved) URL: an article-shaped keyword occurs in the lower-cased URL and
the URL does not end in an image/PDF extension. -/
def keepLink (u : Str) : Bool :=
  linkKeywords.any (fun k => containsSeq (lowerStr u) k)
    && !(imageExts.any (fun e => endsWithStr u e))

theorem extract_fold_spec (source_url : Str) (hrefs : List Str) (acc : List Str)
    (hacc : acc.Nodup) :
    (hrefs.foldl (fun links href0 =>
      let href := resolveHref source_url href0
      if linkKeywords.any (fun k => containsSeq (lowerStr href) k) then
        if !(links.contains href) && !(imageExts.any (fun e => endsWithStr href e)) then
          links ++ [href]
        else links
      else links) acc).Nodup ∧
    ∀ u, (u ∈ hrefs.foldl (fun links href0 =>
      let href := resolveHref source_url href0
      if linkKeywords.any (fun k => containsSeq (lowerStr href) k) then
        if !(links.contains href) && !(imageExts.any (fun e => endsWithStr href e)) then
          links ++ [href]
        else links
      else links) acc ↔
      u ∈ acc ∨ (u ∈ hrefs.map (resolveHref source_url) ∧ keepLink u = true)) := by
  induction hrefs generalizing acc with
  | nil => simp [hacc]
  | cons h0 hs ih =>
    simp only [List.foldl_cons, List.map_cons]
    by_cases hkw : linkKeywords.any
        (fun k => containsSeq (lowerStr (resolveHref source_url h0)) k) = true
    · by_cases hmem : resolveHref source_url h0 ∈ acc
      · have hcontains : acc.contains (resolveHref source_url h0) = true :=
          List.elem_iff.mpr hmem
        have hcne : ¬((!(acc.contains (resolveHref source_url h0))
            && !(imageExts.any (fun e => endsWithStr (resolveHref source_url h0) e))) = true) := by
          rw [hcontains]
          simp
        rw [if_pos hkw, if_neg hcne]
        obtain ⟨hnd, hmem2⟩ := ih acc hacc
        refine ⟨hnd, ?_⟩
        intro u
        rw [hmem2 u]
        simp only [List.mem_cons]
        constructor
        · rintro (hu | ⟨hu, hk⟩)
          · exact Or.inl hu
          · exact Or.inr ⟨Or.inr hu, hk⟩
        · rintro (hu | ⟨(rfl | hu), hk⟩)
          · exact Or.inl hu
          · exact Or.inl hmem
          · exact Or.inr ⟨hu, hk⟩
      · by_cases hext : (imageExts.any
            (fun e => endsWithStr (resolveHref source_url h0) e)) = true
        · have hkeep : keepLink (resolveHref source_url h0) = false := by
            unfold keepLink
            rw [hext]
            simp
          have hcne : ¬((!(acc.contains (resolveHref source_url h0))
              && !(imageExts.any (fun e => endsWithStr (resolveHref source_url h0) e))) = true) := by
            rw [hext]
            simp
          rw [if_pos hkw, if_neg hcne]
          obtain ⟨hnd, hmem2⟩ := ih acc hacc
          refine ⟨hnd, ?_⟩
          intro u
          rw [hmem2 u]
          simp only [List.mem_cons]
          constructor
          · rintro (hu | ⟨hu, hk⟩)
            · exact Or.inl hu
            · exact Or.inr ⟨Or.inr hu, hk⟩
          · rintro (hu | ⟨(rfl | hu), hk⟩)
            · exact Or.inl hu
            · rw [hkeep] at hk
              exact absurd hk (by simp)
            · exact Or.inr ⟨hu, hk⟩
        · have hextf : (imageExts.any
              (fun e => endsWithStr (resolveHref source_url h0) e)) = false := by
            rcases hb : (imageExts.any
                (fun e => endsWithStr (resolveHref source_url h0) e)) with _ | _
            · rfl
            · exact absurd hb hext
          have hcontains : acc.contains (resolveHref source_url h0) = false := by
            rcases hb : acc.contains (resolveHref source_url h0) with _ | _
            · rfl
            · exact absurd (List.elem_iff.mp hb) hmem
          have hkeep : keepLink (resolveHref source_url h0) = true := by
            unfold keepLink
            rw [hkw, hextf]
            rfl
          have hcond : ((!(acc.contains (resolveHref source_url h0))
              && !(imageExts.any (fun e => endsWithStr (resolveHref source_url h0) e))) = true) := by
            rw [hcontains, hextf]
            rfl
          rw [if_pos hkw, if_pos hcond]
          have hacc' : (acc ++ [resolveHref source_url h0]).Nodup := by
            simp [List.nodup_append, hacc, hmem]
          obtain ⟨hnd, hmem2⟩ := ih (acc ++ [resolveHref source_url h0]) hacc'
          refine ⟨hnd, ?_⟩
          intro u
          rw [hmem2 u]
          simp only [List.mem_append, List.mem_cons, List.not_mem_nil, or_false]
          constructor
          · rintro ((hu | rfl) | ⟨hu, hk⟩)
            · exact Or.inl hu
            · exact Or.inr ⟨Or.inl rfl, hkeep⟩
            · exact Or.inr ⟨Or.inr hu, hk⟩
          · rintro (hu | ⟨(rfl | hu), hk⟩)
            · exact Or.inl (Or.inl hu)
            · exact Or.inl (Or.inr rfl)
            · exact Or.inr ⟨hu, hk⟩
    · have hkwf : (linkKeywords.any
          (fun k => containsSeq (lowerStr (resolveHref source_url h0)) k)) = false := by
        rcases hb : (linkKeywords.any
            (fun k => containsSeq (lowerStr (resolveHref source_url h0)) k)) with _ | _
        · rfl
        · exact absurd hb hkw
      have hkeep : keepLink (resolveHref source_url h0) = false := by
        unfold keepLink
        rw [hkwf]
        rfl
      rw [if_neg hkw]
      obtain ⟨hnd, hmem2⟩ := ih acc hacc
      refine ⟨hnd, ?_⟩
      intro u
      rw [hmem2 u]
      simp only [List.mem_cons]
      constructor
      · rintro (hu | ⟨hu, hk⟩)
        · exact Or.inl hu
        · exact Or.inr ⟨Or.inr hu, hk⟩
      · rintro (hu | ⟨(rfl | hu), hk⟩)
        · exact Or.inl hu
        · rw [hkeep] at hk
          exact absurd hk (by simp)
        · exact Or.inr ⟨hu, hk⟩

/- ---------------------------------------------------------------------
The insertion sort used to model `ORDER BY publish_date DESC`:
permutation (membership) and sortedness.
--------------------------------------------------------------------- -/

theorem mem_insertDesc (r x : Row) (l : List Row) :
    x ∈ insertDesc r l ↔ x = r ∨ x ∈ l := by
  induction l with
  | nil => simp [insertDesc]
  | cons a as ih =>
    unfold insertDesc
    split_ifs
    · simp
    · simp only [List.mem_cons, ih]
      tauto

theorem mem_sortPubDesc (x : Row) (l : List Row) : x ∈ sortPubDesc l ↔ x ∈ l := by
  induction l with
  | nil => simp [sortPubDesc]
  | cons a as ih =>
    unfold sortPubDesc
    rw [mem_insertDesc]
    simp [ih]

theorem pubDesc_trans {a b c : Row} (h1 : pubDesc a b = true) (h2 : pubDesc b c = true) :
    pubDesc a c = true :=
  lexLe_trans _ _ _ h2 h1

theorem pubDesc_total (a b : Row) : pubDesc a b = true ∨ pubDesc b a = true :=
  (lexLe_total b.publish_date a.publish_date).elim Or.inl Or.inr

theorem pairwise_insertDesc (r : Row) (l : List Row)
    (h : List.Pairwise (fun a b => pubDesc a b = true) l) :
    List.Pairwise (fun a b => pubDesc a b = true) (insertDesc r l) := by
  induction l with
  | nil => simp [insertDesc]
  | cons a as ih =>
    unfold insertDesc
    obtain ⟨ha, has⟩ := List.pairwise_cons.mp h
    split_ifs with hcmp
    · refine List.pairwise_cons.mpr ⟨?_, h⟩
      intro b hb
      rcases List.mem_cons.mp hb with rfl | hb'
      · exact hcmp
      · exact pubDesc_trans hcmp (ha b hb')
    · refine List.pairwise_cons.mpr ⟨?_, ih has⟩
      intro b hb
      rcases (mem_insertDesc r b as).mp hb with hbr | hb'
      · subst hbr
        rcases pubDesc_total b a with hra | har
        · exact absurd hra hcmp
        · exact har
      · exact ha b hb'

theorem pairwise_sortPubDesc (l : List Row) :
    List.Pairwise (fun a b => pubDesc a b = true) (sortPubDesc l) := by
  induction l with
  | nil => simp [sortPubDesc]
  | cons a as ih =>
    unfold sortPubDesc
    exact pairwise_insertDesc a (sortPubDesc as) ih

/- ---------------------------------------------------------------------
`containsSeq` decomposition, and the SQLite LIKE pattern `%term%`:
for a wildcard-free term it is exactly ASCII-case-insensitive substring
containment.
--------------------------------------------------------------------- -/

theorem startsWithStr_iff (s p : Str) :
    startsWithStr s p = true ↔ ∃ r, s = p ++ r := by
  induction p generalizing s with
  | nil =>
    cases s <;> simp [startsWithStr]
  | cons x ps ih =>
    cases s with
    | nil => simp [startsWithStr]
    | cons c cs =>
      simp only [startsWithStr, Bool.and_eq_true, beq_iff_eq, ih, List.cons_append,
        List.cons.injEq]
      constructor
      · rintro ⟨rfl, r, rfl⟩
        exact ⟨r, rfl, rfl⟩
      · rintro ⟨r, rfl, rfl⟩
        exact ⟨rfl, r, rfl⟩

theorem containsSeq_iff (s p : Str) :
    containsSeq s p = true ↔ ∃ x y, s = x ++ (p ++ y) := by
  induction s with
  | nil =>
    simp only [containsSeq, List.isEmpty_iff]
    constructor
    · rintro rfl
      exact ⟨[], [], rfl⟩
    · rintro ⟨x, y, hxy⟩
      rcases List.append_eq_nil.mp hxy.symm with ⟨rfl, h2⟩
      rcases List.append_eq_nil.mp h2 with ⟨rfl, rfl⟩
      rfl
  | cons c cs ih =>
    simp only [containsSeq, Bool.or_eq_true, startsWithStr_iff, ih]
    constructor
    · rintro (⟨r, hr⟩ | ⟨x, y, hxy⟩)
      · exact ⟨[], r, by rw [hr]; rfl⟩
      · exact ⟨c :: x, y, by rw [hxy]; rfl⟩
    · rintro ⟨x, y, hxy⟩
      cases x with
      | nil =>
        left
        exact ⟨y, by simpa using hxy⟩
      | cons a x' =>
        right
        rw [List.cons_append] at hxy
        injection hxy with h1 h2
        exact ⟨x', y, h2⟩

theorem likeMatch_nil (s : Str) : likeMatch [] s = s.isEmpty := by
  rw [likeMatch]

theorem likeMatch_pct_nil (ps : Str) : likeMatch ('%' :: ps) [] = likeMatch ps [] := by
  rw [likeMatch, if_pos (show ('%' == '%') = true from rfl)]
  exact Bool.or_false _

theorem likeMatch_pct_cons (ps : Str) (c : Char) (s : Str) :
    likeMatch ('%' :: ps) (c :: s) = (likeMatch ps (c :: s) || likeMatch ('%' :: ps) s) := by
  rw [likeMatch, if_pos (show ('%' == '%') = true from rfl)]

theorem likeMatch_plain_nil {p : Char} (hp : ¬p = '%') (ps : Str) :
    likeMatch (p :: ps) [] = false := by
  rw [likeMatch, if_neg (by simp [hp])]

theorem likeMatch_plain_cons {p : Char} (hp : ¬p = '%') (ps : Str) (c : Char) (s : Str) :
    likeMatch (p :: ps) (c :: s) = ((p == '_' || charLikeEq p c) && likeMatch ps s) := by
  rw [likeMatch, if_neg (by simp [hp])]

theorem likeMatch_pct_iff (ps : Str) (s : Str) :
    likeMatch ('%' :: ps) s = true ↔ ∃ s1 s2, s = s1 ++ s2 ∧ likeMatch ps s2 = true := by
  induction s with
  | nil =>
    rw [likeMatch_pct_nil]
    constructor
    · intro h
      exact ⟨[], [], rfl, h⟩
    · rintro ⟨s1, s2, hEq, hm⟩
      rcases List.append_eq_nil.mp hEq.symm with ⟨rfl, rfl⟩
      exact hm
  | cons c s' ih =>
    rw [likeMatch_pct_cons, Bool.or_eq_true]
    constructor
    · rintro (h1 | h2)
      · exact ⟨[], c :: s', rfl, h1⟩
      · obtain ⟨s1, s2, hEq2, hm⟩ := ih.mp h2
        exact ⟨c :: s1, s2, by rw [hEq2]; rfl, hm⟩
    · rintro ⟨s1, s2, hEq, hm⟩
      cases s1 with
      | nil =>
        left
        rw [List.nil_append] at hEq
        rw [hEq]
        exact hm
      | cons a s1' =>
        right
        rw [List.cons_append] at hEq
        injection hEq with h1 h2
        exact ih.mpr ⟨s1', s2, h2, hm⟩

theorem likeMatch_plain_iff {t : Str} (ht : ∀ c ∈ t, ¬c = '%' ∧ ¬c = '_') (s : Str) :
    likeMatch (t ++ ['%']) s = true ↔ ∃ u v, s = u ++ v ∧ lowerStr u = lowerStr t := by
  induction t generalizing s with
  | nil =>
    rw [List.nil_append, likeMatch_pct_iff]
    constructor
    · rintro ⟨s1, s2, rfl, _⟩
      exact ⟨[], s1 ++ s2, rfl, rfl⟩
    · intro _
      refine ⟨s, [], by simp, ?_⟩
      rw [likeMatch_nil]
      rfl
  | cons a t' ih =>
    have ha := ht a (by simp)
    constructor
    · intro h
      cases s with
      | nil =>
        rw [List.cons_append, likeMatch_plain_nil ha.1] at h
        exact absurd h (by simp)
      | cons c s2 =>
        rw [List.cons_append, likeMatch_plain_cons ha.1, Bool.and_eq_true] at h
        obtain ⟨hceq, hrest⟩ := h
        obtain ⟨u, v, rfl, hlu⟩ := (ih (fun x hx => ht x (by simp [hx])) s2).mp hrest
        refine ⟨c :: u, v, rfl, ?_⟩
        have hac : a.toLower = c.toLower := by
          rw [Bool.or_eq_true] at hceq
          rcases hceq with h1 | h1
          · exact absurd (by simpa using h1) ha.2
          · simpa [charLikeEq] using h1
        show lowerStr (c :: u) = lowerStr (a :: t')
        rw [lowerStr, lowerStr, List.map_cons, List.map_cons, ← hac]
        exact congrArg (List.cons a.toLower) hlu
    · rintro ⟨u, v, rfl, hlu⟩
      cases u with
      | nil => simp [lowerStr] at hlu
      | cons b u' =>
        simp only [lowerStr, List.map_cons, List.cons.injEq] at hlu
        rw [List.cons_append, List.cons_append, likeMatch_plain_cons ha.1,
          Bool.and_eq_true]
        constructor
        · rw [Bool.or_eq_true]
          right
          simp [charLikeEq, hlu.1]
        · exact (ih (fun x hx => ht x (by simp [hx])) (u' ++ v)).mpr ⟨u', v, rfl, hlu.2⟩

theorem likeMatch_termPat_iff {t : Str} (ht : ∀ c ∈ t, ¬c = '%' ∧ ¬c = '_') (s : Str) :
    likeMatch (termPat t) s = true ↔ containsSeq (lowerStr s) (lowerStr t) = true := by
  unfold termPat
  rw [likeMatch_pct_iff, containsSeq_iff]
  constructor
  · rintro ⟨s1, s2, rfl, hm⟩
    obtain ⟨u, v, rfl, hlu⟩ := (likeMatch_plain_iff ht s2).mp hm
    refine ⟨lowerStr s1, lowerStr v, ?_⟩
    have hlu' : List.map Char.toLower u = List.map Char.toLower t := hlu
    simp [lowerStr, List.map_append, hlu']
  · rintro ⟨x, y, hxy⟩
    refine ⟨s.take x.length, s.drop x.length, (List.take_append_drop _ s).symm, ?_⟩
    rw [likeMatch_plain_iff ht]
    refine ⟨(s.drop x.length).take t.length, (s.drop x.length).drop t.length,
      (List.take_append_drop _ _).symm, ?_⟩
    have hdrop : lowerStr (s.drop x.length) = lowerStr t ++ y := by
      have : (lowerStr s).drop x.length = lowerStr t ++ y := by
        rw [hxy]
        exact List.drop_left x (lowerStr t ++ y)
      rw [← this, lowerStr, lowerStr, List.map_drop]
    have : lowerStr ((s.drop x.length).take t.length) =
        (lowerStr (s.drop x.length)).take t.length := by
      rw [lowerStr, lowerStr, List.map_take]
    rw [this, hdrop]
    have hlen : t.length = (lowerStr t).length := by
      rw [lowerStr, List.length_map]
    rw [hlen]
    exact List.take_left _ _

/- ---------------------------------------------------------------------
Bounds for parsed dates (strptime) and small string facts.
--------------------------------------------------------------------- -/

theorem natOfDigits_foldl_lt (ds : Str) (acc : Nat) (h : ∀ c ∈ ds, c.isDigit = true) :
    ds.foldl (fun a c => a * 10 + digitVal c) acc < (acc + 1) * 10 ^ ds.length := by
  induction ds generalizing acc with
  | nil => simp
  | cons c cs ih =>
    simp only [List.foldl_cons, List.length_cons]
    have hd : digitVal c ≤ 9 := by
      obtain ⟨h1, h2⟩ := isDigit_toNat (h c (by simp))
      unfold digitVal
      omega
    have hstep := ih (acc * 10 + digitVal c) (fun x hx => h x (by simp [hx]))
    have hmul : (acc * 10 + digitVal c + 1) * 10 ^ cs.length ≤
        (acc + 1) * 10 ^ (cs.length + 1) := by
      have hq : acc * 10 + digitVal c + 1 ≤ (acc + 1) * 10 := by omega
      rw [pow_succ]
      calc (acc * 10 + digitVal c + 1) * 10 ^ cs.length
          ≤ ((acc + 1) * 10) * 10 ^ cs.length := Nat.mul_le_mul_right _ hq
        _ = (acc + 1) * (10 ^ cs.length * 10) := by ring
    exact Nat.lt_of_lt_of_le hstep hmul

theorem natOfDigits_lt (ds : Str) (h : ∀ c ∈ ds, c.isDigit = true) :
    natOfDigits ds < 10 ^ ds.length := by
  have := natOfDigits_foldl_lt ds 0 h
  simpa [natOfDigits] using this

theorem parseDate_bounds {s : Str} {y m d : Nat} (h : parseDate s = some (y, m, d)) :
    1 ≤ y ∧ y ≤ 9999 ∧ 1 ≤ m ∧ m ≤ 12 ∧ 1 ≤ d ∧ d ≤ daysInMonth y m := by
  unfold parseDate at h
  split at h
  case h_2 => simp at h
  case h_1 ys ms ds heq =>
    split_ifs at h with h1
    · dsimp only at h
      split_ifs at h with h2
      · injection h with h'
        rw [Prod.mk.injEq] at h'
        obtain ⟨hy, h''⟩ := h'
        rw [Prod.mk.injEq] at h''
        obtain ⟨hm, hd⟩ := h''
        subst hy
        subst hm
        subst hd
        simp only [Bool.and_eq_true, decide_eq_true_eq, beq_iff_eq,
          List.all_eq_true] at h1 h2
        obtain ⟨⟨⟨⟨⟨⟨⟨hlen4, hydig⟩, _⟩, _⟩, _⟩, _⟩, _⟩, _⟩ := h1
        have hy9999 : natOfDigits ys < 10000 := by
          have := natOfDigits_lt ys (fun c hc => hydig c hc)
          rw [hlen4] at this
          simpa using this
        exact ⟨h2.1.1.1.1, by omega, h2.1.1.1.2, h2.1.1.2, h2.1.2, h2.2⟩

theorem parseDate_start_valid {s : Str} {y m d : Nat} (h : parseDate s = some (y, m, d)) :
    validDT ⟨y, m, d, 0, 0, 0⟩ = true := by
  obtain ⟨h1, h2, h3, h4, h5, h6⟩ := parseDate_bounds h
  simp only [validDT, Bool.and_eq_true, decide_eq_true_eq]
  refine ⟨⟨⟨⟨⟨⟨⟨⟨h1, h2⟩, h3⟩, h4⟩, h5⟩, h6⟩, by omega⟩, by omega⟩, by omega⟩

theorem parseDate_end_valid {s : Str} {y m d : Nat} (h : parseDate s = some (y, m, d)) :
    validDT ⟨y, m, d, 23, 59, 59⟩ = true := by
  obtain ⟨h1, h2, h3, h4, h5, h6⟩ := parseDate_bounds h
  simp only [validDT, Bool.and_eq_true, decide_eq_true_eq]
  refine ⟨⟨⟨⟨⟨⟨⟨⟨h1, h2⟩, h3⟩, h4⟩, h5⟩, h6⟩, by omega⟩, by omega⟩, by omega⟩

theorem startsWithStr_prefix (p s : Str) : startsWithStr (p ++ s) p = true := by
  induction p with
  | nil => cases s <;> rfl
  | cons c ps ih => simp [startsWithStr, ih]

/- ---------------------------------------------------------------------
Spec-side notions used to state the published claims about the link
filter: the path component of a URL and "article-shaped" paths.
--------------------------------------------------------------------- -/

/-- Modelled from the spec: the path component of a URL — for an absolute
URL, what follows the scheme and host up to a query or fragment; for other
references, everything up to a query or fragment. -/
def specUrlPath (u : Str) : Str :=
  match splitAtColon u with
  | some (sch, rest) =>
    if validScheme sch && startsWithStr rest "//".data then
      ((rest.drop 2).dropWhile (fun c => !(c == '/' || c == '?' || c == '#'))).takeWhile
        (fun c => !(c == '?' || c == '#'))
    else u.takeWhile (fun c => !(c == '?' || c == '#'))
  | none => u.takeWhile (fun c => !(c == '?' || c == '#'))

/-- Modelled from the spec: the text contains a `/YYYY/` four-digit-year
segment. -/
def hasFourDigitYearSeg : Str → Bool
  | [] => false
  | c :: cs =>
    (c == '/' &&
      (match cs with
       | d1 :: d2 :: d3 :: d4 :: e :: _ =>
         d1.isDigit && d2.isDigit && d3.isDigit && d4.isDigit && e == '/'
       | _ => false)) || hasFourDigitYearSeg cs

/-- Modelled from the spec: the path contains one of the article-shaped
substrings `/article/`, `/news/`, `/story/`, or a four-digit year
segment. -/
def specArticleShapedPath (p : Str) : Bool :=
  containsSeq p "/article/".data || containsSeq p "/news/".data
    || containsSeq p "/story/".data || hasFourDigitYearSeg p

/- ---------------------------------------------------------------------
Case analysis of process_article: it either leaves the table unchanged
and returns false, or appends exactly the one new row and returns true;
and it returns true exactly when the URL is fresh, extraction succeeded,
the date filter passes, and the INSERT does not fault.
--------------------------------------------------------------------- -/

theorem process_article_spec (st : List Row) (url source : Str)
    (extracted : Option Draft) (dr : Option (DT × DT)) (ok : Bool) (now : DT) :
    (((process_article st url source extracted dr ok now).1 = false ∧
        (process_article st url source extracted dr ok now).2 = st) ∨
      (∃ a, extracted = some a ∧
        process_article st url source extracted dr ok now =
          (true, st ++ [mkRow url source a now]))) ∧
    ((process_article st url source extracted dr ok now).1 = true ↔
      (∀ r ∈ st, r.url ≠ url) ∧ (∃ a, extracted = some a ∧ inRangeOpt dr a = true)
        ∧ ok = true) := by
  unfold process_article
  by_cases hdup : st.any (fun r => r.url == url) = true
  · rw [if_pos hdup]
    refine ⟨Or.inl ⟨rfl, rfl⟩, ?_⟩
    constructor
    · intro h
      exact absurd h (by simp)
    · rintro ⟨hfresh, _, _⟩
      obtain ⟨r, hr, hru⟩ := List.any_eq_true.mp hdup
      exact absurd (by simpa using hru) (hfresh r hr)
  · rw [if_neg hdup]
    have hfresh : ∀ r ∈ st, r.url ≠ url := by
      intro r hr
      intro hcontra
      exact hdup (List.any_eq_true.mpr ⟨r, hr, by simpa using hcontra⟩)
    cases extracted with
    | none =>
      refine ⟨Or.inl ⟨rfl, rfl⟩, ?_⟩
      constructor
      · intro h
        exact absurd h (by simp)
      · rintro ⟨_, ⟨a, ha, _⟩, _⟩
        exact absurd ha (by simp)
    | some a =>
      dsimp only
      by_cases hir : inRangeOpt dr a = true
      · rw [if_neg (by simp [hir])]
        cases ok with
        | true =>
          rw [if_pos rfl]
          refine ⟨Or.inr ⟨a, rfl, rfl⟩, ?_⟩
          exact ⟨fun _ => ⟨hfresh, ⟨a, rfl, hir⟩, rfl⟩, fun _ => rfl⟩
        | false =>
          rw [if_neg (by simp)]
          refine ⟨Or.inl ⟨rfl, rfl⟩, ?_⟩
          constructor
          · intro h
            exact absurd h (by simp)
          · rintro ⟨_, _, hok⟩
            exact absurd hok (by simp)
      · have hirf : inRangeOpt dr a = false := by
          rcases hb : inRangeOpt dr a with _ | _
          · rfl
          · exact absurd hb hir
        rw [if_pos (by simp [hirf])]
        refine ⟨Or.inl ⟨rfl, rfl⟩, ?_⟩
        constructor
        · intro h
          exact absurd h (by simp)
        · rintro ⟨_, ⟨a2, ha2, hir2⟩, _⟩
          injection ha2 with ha2'
          subst ha2'
          exact absurd hir2 hir

theorem process_article_dup (st : List Row) (url source : Str)
    (extracted : Option Draft) (dr : Option (DT × DT)) (ok : Bool) (now : DT)
    (hdup : ∃ r ∈ st, r.url = url) :
    process_article st url source extracted dr ok now = (false, st) := by
  obtain ⟨hcases, hiff⟩ := process_article_spec st url source extracted dr ok now
  have h1 : (process_article st url source extracted dr ok now).1 = false := by
    rcases hb : (process_article st url source extracted dr ok now).1 with _ | _
    · rfl
    · obtain ⟨hfresh, _, _⟩ := hiff.mp hb
      obtain ⟨r, hr, hru⟩ := hdup
      exact absurd hru (hfresh r hr)
  rcases hcases with ⟨_, h2⟩ | ⟨a, _, h3⟩
  · conv_rhs => rw [← h2, ← h1]
  · rw [h3] at h1
    exact absurd h1 (by simp)

theorem process_article_fresh_some (st : List Row) (url source : Str) (a : Draft)
    (dr : Option (DT × DT)) (now : DT) (hfresh : ∀ r ∈ st, r.url ≠ url)
    (hir : inRangeOpt dr a = true) :
    process_article st url source (some a) dr true now =
      (true, st ++ [mkRow url source a now]) := by
  obtain ⟨hcases, hiff⟩ := process_article_spec st url source (some a) dr true now
  have h1 : (process_article st url source (some a) dr true now).1 = true :=
    hiff.mpr ⟨hfresh, ⟨a, rfl, hir⟩, rfl⟩
  rcases hcases with ⟨h2, _⟩ | ⟨a2, ha2, h3⟩
  · rw [h1] at h2
    exact absurd h2 (by simp)
  · injection ha2 with h
    subst h
    exact h3

theorem process_article_skip (st : List Row) (url source : Str) (a : Draft)
    (dr : Option (DT × DT)) (ok : Bool) (now : DT)
    (hirf : inRangeOpt dr a = false) :
    process_article st url source (some a) dr ok now = (false, st) := by
  obtain ⟨hcases, hiff⟩ := process_article_spec st url source (some a) dr ok now
  have h1 : (process_article st url source (some a) dr ok now).1 = false := by
    rcases hb : (process_article st url source (some a) dr ok now).1 with _ | _
    · rfl
    · obtain ⟨_, ⟨a2, ha2, hir2⟩, _⟩ := hiff.mp hb
      injection ha2 with h
      subst h
      rw [hirf] at hir2
      exact absurd hir2 (by simp)
  rcases hcases with ⟨_, h2⟩ | ⟨a2, _, h3⟩
  · conv_rhs => rw [← h2, ← h1]
  · rw [h3] at h1
    exact absurd h1 (by simp)

/- ---------------------------------------------------------------------
Lookup behavior of the search_terms upsert.
--------------------------------------------------------------------- -/

theorem find?_filter_of_imp {α : Type} (p q : α → Bool) (l : List α)
    (h : ∀ x, p x = true → q x = true) :
    (l.filter q).find? p = l.find? p := by
  induction l with
  | nil => rfl
  | cons x xs ih =>
    by_cases hq : q x = true
    · rw [List.filter_cons_of_pos hq]
      by_cases hp : p x = true
      · rw [List.find?_cons_of_pos _ hp, List.find?_cons_of_pos _ hp]
      · rw [List.find?_cons_of_neg _ hp, List.find?_cons_of_neg _ hp, ih]
    · have hp : ¬p x = true := fun hb => hq (h x hb)
      rw [List.filter_cons_of_neg hq, List.find?_cons_of_neg _ hp, ih]

theorem lookupTerm_upsert_self (ts : List (Str × Str)) (term v : Str) :
    lookupTerm (upsertTerm ts term v) term = some v := by
  unfold lookupTerm upsertTerm
  rw [List.find?_append]
  have hnone : (ts.filter (fun p => !(p.1 == term))).find? (fun p => p.1 == term) = none := by
    rw [List.find?_eq_none]
    intro x hx
    have := (List.mem_filter.mp hx).2
    simp only [Bool.not_eq_true'] at this
    simp [this]
  rw [hnone]
  rw [List.find?_cons_of_pos _ (by simp)]
  rfl

theorem lookupTerm_upsert_other (ts : List (Str × Str)) (term v t2 : Str)
    (h : t2 ≠ term) :
    lookupTerm (upsertTerm ts term v) t2 = lookupTerm ts t2 := by
  unfold lookupTerm upsertTerm
  rw [List.find?_append]
  rw [find?_filter_of_imp (fun p => p.1 == t2) (fun p => !(p.1 == term)) ts ?himp]
  case himp =>
    intro x hx
    simp only [beq_iff_eq] at hx
    simp [hx, h]
  rw [List.find?_cons_of_neg _
    (by simp only [beq_iff_eq]; exact fun hh => h hh.symm)]
  cases ts.find? (fun p => p.1 == t2) <;> rfl

/- ---------------------------------------------------------------------
Test fixtures for the closed witness statements.
--------------------------------------------------------------------- -/

def tNow : DT := ⟨2024, 5, 17, 12, 0, 0⟩

def tUrl : Str := "https://ex.com/news/1".data

def tDraft : Draft :=
  { title := "T".data, author := "Unknown".data,
    publish_date := ⟨2024, 5, 16, 8, 30, 0⟩,
    content := "stocks rally".data, summary := "S".data, keywords := [] }

def tRow : Row := mkRow tUrl "CNBC".data tDraft tNow

def tDraftOld : Draft :=
  { title := "T2".data, author := "Unknown".data,
    publish_date := ⟨2020, 1, 1, 0, 0, 0⟩,
    content := "old".data, summary := "S2".data, keywords := [] }

def tRowQ : Row :=
  { title := "Q".data, url := "https://ex.com/q".data, source := "CNBC".data,
    author := "Unknown".data, publish_date := fmtDT ⟨2024, 1, 1, 12, 0, 0⟩,
    content := "".data, summary := "".data, keywords := "".data,
    retrieved_date := fmtDT tNow, category := "general".data }

def tRowS : Row :=
  { title := "abc".data, url := "https://ex.com/s".data, source := "CNBC".data,
    author := "Unknown".data, publish_date := fmtDT ⟨2024, 1, 1, 12, 0, 0⟩,
    content := "".data, summary := "".data, keywords := "".data,
    retrieved_date := fmtDT tNow, category := "general".data }

def tSd : DT := ⟨2024, 1, 1, 0, 0, 0⟩

def tEd : DT := ⟨2024, 1, 7, 23, 59, 59⟩

def tDraftB : Draft :=
  { title := "B".data, author := "Unknown".data, publish_date := ⟨2024, 1, 1, 0, 0, 0⟩,
    content := "boundary".data, summary := "S".data, keywords := [] }

/- ---------------------------------------------------------------------
Claim theorems.
--------------------------------------------------------------------- -/

/-- C1: Insert idempotence — for a URL already present in the articles
store, an ingestion attempt for that same URL is a no-op returning
`false` (the stored rows, hence the row count and the content stored for
that URL, are unchanged), while the first insert of a never-seen URL
(successful extraction, passing date filter, no storage fault) returns
`true` and stores the article. -/
theorem c1_insert_idempotence (st : List Row) (url source : Str)
    (extracted : Option Draft) (dr : Option (DT × DT)) (ok : Bool) (now : DT)
    (a : Draft) :
    ((∃ r ∈ st, r.url = url) →
      process_article st url source extracted dr ok now = (false, st) ∧
      ((process_article st url source extracted dr ok now).2).length = st.length) ∧
    ((∀ r ∈ st, r.url ≠ url) → extracted = some a → inRangeOpt dr a = true →
      ok = true →
      process_article st url source extracted dr ok now =
        (true, st ++ [mkRow url source a now])) := by
  constructor
  · intro h
    have hd := process_article_dup st url source extracted dr ok now h
    exact ⟨hd, by rw [hd]⟩
  · intro hf he hir hok
    subst he
    subst hok
    exact process_article_fresh_some st url source a dr now hf hir

/-- C1 witness: a duplicate URL is refused with the store unchanged; a
fresh URL is stored with result `true`. -/
theorem c1_witness :
    process_article [tRow] tUrl "CNBC".data (some tDraft) none true tNow
      = (false, [tRow]) ∧
    process_article [] tUrl "CNBC".data (some tDraft) none true tNow =
      (true, [] ++ [mkRow tUrl "CNBC".data tDraft tNow]) := by
  refine ⟨((c1_insert_idempotence [tRow] tUrl "CNBC".data (some tDraft) none true tNow
      tDraft).1 ⟨tRow, by simp, rfl⟩).1, ?_⟩
  exact (c1_insert_idempotence [] tUrl "CNBC".data (some tDraft) none true tNow tDraft).2
    (by simp) rfl rfl rfl

/-- C2: Date-range persistence filter — with an active range `[sd, ed]`,
a fresh successfully-extracted article is persisted exactly when
`sd ≤ publish ≤ ed` (instants compared, both boundaries inclusive); with
no active range it is persisted unconditionally. -/
theorem c2_date_filter (st : List Row) (url source : Str) (a : Draft)
    (sd ed now : DT) (hfresh : ∀ r ∈ st, r.url ≠ url) :
    ((process_article st url source (some a) (some (sd, ed)) true now).1 = true ↔
      (toSec sd ≤ toSec a.publish_date ∧ toSec a.publish_date ≤ toSec ed)) ∧
    (toSec sd ≤ toSec a.publish_date → toSec a.publish_date ≤ toSec ed →
      process_article st url source (some a) (some (sd, ed)) true now =
        (true, st ++ [mkRow url source a now])) ∧
    (¬(toSec sd ≤ toSec a.publish_date ∧ toSec a.publish_date ≤ toSec ed) →
      process_article st url source (some a) (some (sd, ed)) true now = (false, st)) ∧
    (process_article st url source (some a) none true now =
      (true, st ++ [mkRow url source a now])) := by
  have hiniff : inRangeOpt (some (sd, ed)) a = true ↔
      (toSec sd ≤ toSec a.publish_date ∧ toSec a.publish_date ≤ toSec ed) := by
    simp [inRangeOpt, dtLe, Bool.and_eq_true]
  refine ⟨?_, ?_, ?_, ?_⟩
  · rw [(process_article_spec st url source (some a) (some (sd, ed)) true now).2]
    constructor
    · rintro ⟨_, ⟨a2, ha2, hir⟩, _⟩
      injection ha2 with h
      subst h
      exact hiniff.mp hir
    · intro h
      exact ⟨hfresh, ⟨a, rfl, hiniff.mpr h⟩, rfl⟩
  · intro h1 h2
    exact process_article_fresh_some st url source a _ now hfresh (hiniff.mpr ⟨h1, h2⟩)
  · intro h
    have hirf : inRangeOpt (some (sd, ed)) a = false := by
      rcases hb : inRangeOpt (some (sd, ed)) a with _ | _
      · rfl
      · exact absurd (hiniff.mp hb) h
    exact process_article_skip st url source a _ true now hirf
  · exact process_article_fresh_some st url source a none now hfresh rfl

/-- C2 witness: an article published exactly on the range's start boundary
is persisted (inclusive boundary); one published before the range is
refused. -/
theorem c2_witness :
    (process_article [] tUrl "CNBC".data (some tDraftB) (some (tSd, tEd)) true tNow).1
      = true ∧
    process_article [] tUrl "CNBC".data (some tDraftOld) (some (tSd, tEd)) true tNow
      = (false, []) := by
  constructor
  · exact ((c2_date_filter [] tUrl "CNBC".data tDraftB tSd tEd tNow (by simp)).1).mpr
      ⟨by decide, by decide⟩
  · exact (c2_date_filter [] tUrl "CNBC".data tDraftOld tSd tEd tNow (by simp)).2.2.1
      (by decide)

/-- C3: Relative-time normalization — on the lower-cased, stripped text,
the first match of `(\d+)\s*([mhdy])` determines the result: `now` minus
`n` minutes, hours, days, or 365·n days respectively; such a match exists
exactly when the text contains a digit run, optional whitespace, and a
unit letter; with no match, "a few seconds ago"/"just now" yield `now`,
and anything else fails (ValueError, modelled as `none`). -/
theorem c3_relative_time (text : Str) (now : Int) :
    (∀ n, findRel (stripStr (lowerStr text)) = some (n, 'm') →
      parse_relative_time text now = some (now - 60 * n)) ∧
    (∀ n, findRel (stripStr (lowerStr text)) = some (n, 'h') →
      parse_relative_time text now = some (now - 3600 * n)) ∧
    (∀ n, findRel (stripStr (lowerStr text)) = some (n, 'd') →
      parse_relative_time text now = some (now - 86400 * n)) ∧
    (∀ n, findRel (stripStr (lowerStr text)) = some (n, 'y') →
      parse_relative_time text now = some (now - 365 * 86400 * n)) ∧
    ((findRel (stripStr (lowerStr text))).isSome = true ↔
      HasRelPattern (stripStr (lowerStr text))) ∧
    (findRel (stripStr (lowerStr text)) = none →
      (containsSeq (stripStr (lowerStr text)) "a few seconds ago".data
        || containsSeq (stripStr (lowerStr text)) "just now".data) = true →
      parse_relative_time text now = some now) ∧
    (findRel (stripStr (lowerStr text)) = none →
      (containsSeq (stripStr (lowerStr text)) "a few seconds ago".data
        || containsSeq (stripStr (lowerStr text)) "just now".data) = false →
      parse_relative_time text now = none) := by
  refine ⟨?_, ?_, ?_, ?_, findRel_isSome_iff _, ?_, ?_⟩
  · intro n h
    simp [parse_relative_time, h, relDurSec]
  · intro n h
    simp [parse_relative_time, h, relDurSec]
  · intro n h
    simp [parse_relative_time, h, relDurSec]
  · intro n h
    simp [parse_relative_time, h, relDurSec]
  · intro h hc
    simp [parse_relative_time, h, hc]
  · intro h hc
    simp [parse_relative_time, h, hc]

/-- C3 witness: "3h ago" normalizes to now − 3·3600 s, "just now" to now,
and an unparseable text fails. -/
theorem c3_witness :
    parse_relative_time "3h ago".data 1000 = some (1000 - 3600 * 3) ∧
    parse_relative_time "just now".data 1000 = some 1000 ∧
    parse_relative_time "hello world".data 1000 = none := by
  refine ⟨(c3_relative_time "3h ago".data 1000).2.1 3 (by decide), ?_, ?_⟩
  · exact (c3_relative_time "just now".data 1000).2.2.2.2.2.1 (by decide) (by decide)
  · exact (c3_relative_time "hello world".data 1000).2.2.2.2.2.2 (by decide) (by decide)

/-- C4: Categorizer contract — over the lower-cased `title + " " + content`,
either every fixed category's keyword-occurrence count is zero and the
result is `general`, or the result is a category attaining a positive,
maximal count; the result depends only on the (title, content) pair. -/
theorem c4_categorizer (content title : Str) :
    (∀ c2 t2, c2 = content → t2 = title →
      categorize_article c2 t2 = categorize_article content title) ∧
    ((categorize_article content title = "general".data ∧
        ∀ p ∈ categories, catScore (lowerStr (title ++ ' ' :: content)) p.2 = 0) ∨
      (∃ p ∈ categories, categorize_article content title = p.1 ∧
        0 < catScore (lowerStr (title ++ ' ' :: content)) p.2 ∧
        ∀ q ∈ categories, catScore (lowerStr (title ++ ' ' :: content)) q.2 ≤
          catScore (lowerStr (title ++ ' ' :: content)) p.2)) :=
  ⟨fun c2 t2 hc ht => by rw [hc, ht], categorize_spec content title⟩

/-- C4 witness: determinism instantiated at a concrete pair. -/
theorem c4_witness :
    categorize_article "bitcoin rallies".data "Crypto".data =
      categorize_article "bitcoin rallies".data "Crypto".data :=
  (c4_categorizer "bitcoin rallies".data "Crypto".data).1
    "bitcoin rallies".data "Crypto".data rfl rfl

theorem endsWithStr_append (x p : Str) : endsWithStr (x ++ p) p = true := by
  unfold endsWithStr
  rw [List.reverse_append]
  exact startsWithStr_prefix p.reverse x.reverse

/-- C5 counterexample: the extractor keeps the path-relative reference
`x/article/y` verbatim — it is not resolved against the listing page's
scheme+host (only references beginning with `/` are) — and it keeps a URL
whose query string, not path, contains `/news/`, although that URL's path
`/page` contains no article-shaped substring. -/
theorem c5_counterexample :
    extract_article_links (some ["x/article/y".data]) "https://ex.com/list".data
      = ["x/article/y".data] ∧
    startsWithStr "x/article/y".data "/".data = false ∧
    "x/article/y".data ≠
      schemeHost "https://ex.com/list".data ++ "x/article/y".data ∧
    extract_article_links (some ["https://ex.com/page?ref=/news/".data])
      "https://ex.com/list".data = ["https://ex.com/page?ref=/news/".data] ∧
    specArticleShapedPath (specUrlPath "https://ex.com/page?ref=/news/".data) = false := by
  refine ⟨?_, ?_, ?_, ?_, ?_⟩ <;> decide

/-- C5 (amended): link extraction returns, without duplicates, exactly
those hrefs — resolved against the page's scheme+host when they begin
with `/`, kept verbatim otherwise — whose lower-cased URL string contains
one of the six article-shaped keywords and which do not end in an
image/PDF extension; a fetch failure yields the empty list. -/
theorem c5_link_extraction (source_url : Str) (hrefs : List Str) :
    extract_article_links none source_url = [] ∧
    (extract_article_links (some hrefs) source_url).Nodup ∧
    (∀ u, u ∈ extract_article_links (some hrefs) source_url ↔
      (u ∈ hrefs.map (resolveHref source_url) ∧ keepLink u = true)) := by
  have hunf : extract_article_links (some hrefs) source_url =
      hrefs.foldl (fun links href0 =>
        let href := resolveHref source_url href0
        if linkKeywords.any (fun k => containsSeq (lowerStr href) k) then
          if !(links.contains href) && !(imageExts.any (fun e => endsWithStr href e)) then
            links ++ [href]
          else links
        else links) [] := rfl
  obtain ⟨hnd, hmem⟩ := extract_fold_spec source_url hrefs [] (by simp)
  refine ⟨rfl, ?_, ?_⟩
  · rw [hunf]
    exact hnd
  · intro u
    rw [hunf, hmem u]
    simp

/-- C5 witness: a root-relative article link on a listing page is resolved
and kept. -/
theorem c5_witness :
    "https://ex.com/news/a".data ∈
      extract_article_links (some ["/news/a".data]) "https://ex.com/list".data ↔
      ("https://ex.com/news/a".data ∈
        (["/news/a".data].map (resolveHref "https://ex.com/list".data)) ∧
        keepLink "https://ex.com/news/a".data = true) :=
  (c5_link_extraction "https://ex.com/list".data ["/news/a".data]).2.2 _

/-- C6: Summary derivation and cap — the summary is the blank-line join of
the first two (stripped) paragraph texts; if that text exceeds 500
characters the summary is its first 497 characters plus `...` (so it ends
with the ellipsis and has exactly 500 characters); it never exceeds 500
characters. -/
theorem c6_summary_cap (paragraphs : List Str) :
    (summaryFrom paragraphs).length ≤ 500 ∧
    (500 < (joinStrs "\n\n".data ((paragraphs.take 2).map stripStr)).length →
      summaryFrom paragraphs =
        (joinStrs "\n\n".data ((paragraphs.take 2).map stripStr)).take 497
          ++ "...".data ∧
      (summaryFrom paragraphs).length = 500 ∧
      endsWithStr (summaryFrom paragraphs) "...".data = true) ∧
    (¬500 < (joinStrs "\n\n".data ((paragraphs.take 2).map stripStr)).length →
      summaryFrom paragraphs = joinStrs "\n\n".data ((paragraphs.take 2).map stripStr)) := by
  by_cases h : 500 < (joinStrs "\n\n".data ((paragraphs.take 2).map stripStr)).length
  · have hunf : summaryFrom paragraphs =
        (joinStrs "\n\n".data ((paragraphs.take 2).map stripStr)).take 497
          ++ "...".data := by
      unfold summaryFrom
      dsimp only
      rw [if_pos h]
    have hlen : (summaryFrom paragraphs).length = 500 := by
      rw [hunf, List.length_append, List.length_take,
        show ("...".data).length = 3 from rfl]
      omega
    refine ⟨le_of_eq hlen, fun _ => ⟨hunf, hlen, ?_⟩, fun hc => absurd h hc⟩
    rw [hunf]
    exact endsWithStr_append _ _
  · have hunf : summaryFrom paragraphs =
        joinStrs "\n\n".data ((paragraphs.take 2).map stripStr) := by
      unfold summaryFrom
      dsimp only
      rw [if_neg h]
    refine ⟨?_, fun hc => absurd hc h, fun _ => hunf⟩
    rw [hunf]
    omega

set_option maxRecDepth 4000 in
/-- C6 witness: a 600-character paragraph is truncated to exactly 500
characters ending in the ellipsis. -/
theorem c6_witness :
    summaryFrom [List.replicate 600 'a'] =
      (joinStrs "\n\n".data (([List.replicate 600 'a'].take 2).map stripStr)).take 497
        ++ "...".data ∧
    (summaryFrom [List.replicate 600 'a']).length = 500 ∧
    endsWithStr (summaryFrom [List.replicate 600 'a']) "...".data = true :=
  (c6_summary_cap [List.replicate 600 'a']).2.1 (by decide)

theorem gabdr_eq_some {st : List Row} {s e : Str} {ys ms ds ye me de : Nat}
    (hs : parseDate s = some (ys, ms, ds)) (he : parseDate e = some (ye, me, de)) :
    get_articles_by_date_range st s e =
      sortPubDesc (st.filter (fun r =>
        lexLe (fmtDT ⟨ys, ms, ds, 0, 0, 0⟩) r.publish_date
          && lexLe r.publish_date (fmtDT ⟨ye, me, de, 23, 59, 59⟩))) := by
  unfold get_articles_by_date_range
  rw [hs, he]

theorem gabdr_none {st : List Row} {s e : Str}
    (h : parseDate s = none ∨ parseDate e = none) :
    get_articles_by_date_range st s e = [] := by
  unfold get_articles_by_date_range
  rcases h with h | h
  · rw [h]
  · rcases hq : parseDate s with _ | v
    · rfl
    · obtain ⟨ys, ms, ds⟩ := v
      rw [h]

/-- C7: Date-range query semantics — malformed date arguments yield the
empty result; well-formed date-only arguments select exactly the stored
rows whose publish_date string lies between `start 00:00:00` and
`end 23:59:59`, which — for rows holding formatted valid instants — is
exactly the instant interval `[start-of-day, end-of-day]`, boundaries
inclusive. -/
theorem c7_query_by_date_range (st : List Row) (s e : Str) :
    ((parseDate s = none ∨ parseDate e = none) →
      get_articles_by_date_range st s e = []) ∧
    (∀ ys ms ds ye me de, parseDate s = some (ys, ms, ds) →
      parseDate e = some (ye, me, de) →
      (∀ r, r ∈ get_articles_by_date_range st s e ↔
        r ∈ st ∧ lexLe (fmtDT ⟨ys, ms, ds, 0, 0, 0⟩) r.publish_date = true ∧
          lexLe r.publish_date (fmtDT ⟨ye, me, de, 23, 59, 59⟩) = true) ∧
      (∀ r t, r ∈ st → r.publish_date = fmtDT t → validDT t = true →
        1000 ≤ t.y → 1000 ≤ ys → 1000 ≤ ye →
        (r ∈ get_articles_by_date_range st s e ↔
          toSec ⟨ys, ms, ds, 0, 0, 0⟩ ≤ toSec t ∧
            toSec t ≤ toSec ⟨ye, me, de, 23, 59, 59⟩))) := by
  refine ⟨gabdr_none, ?_⟩
  intro ys ms ds ye me de hs he
  have hmem : ∀ r, r ∈ get_articles_by_date_range st s e ↔
      r ∈ st ∧ lexLe (fmtDT ⟨ys, ms, ds, 0, 0, 0⟩) r.publish_date = true ∧
        lexLe r.publish_date (fmtDT ⟨ye, me, de, 23, 59, 59⟩) = true := by
    intro r
    rw [gabdr_eq_some hs he, mem_sortPubDesc, List.mem_filter, Bool.and_eq_true]
  refine ⟨hmem, ?_⟩
  intro r t hr hpub hv hy1000 hys hye
  rw [hmem r, hpub]
  have hvs := parseDate_start_valid hs
  have hve := parseDate_end_valid he
  constructor
  · rintro ⟨_, h1, h2⟩
    exact ⟨(fmt_le_iff hvs hv).mp h1, (fmt_le_iff hv hve).mp h2⟩
  · rintro ⟨h1, h2⟩
    exact ⟨hr, (fmt_le_iff hvs hv).mpr h1, (fmt_le_iff hv hve).mpr h2⟩

/-- C7 witness: a noon article on 2024-01-01 is in the result of
querying exactly that day, characterized by the day's instant interval;
a malformed argument yields the empty result. -/
theorem c7_witness :
    (tRowQ ∈ get_articles_by_date_range [tRowQ] "2024-01-01".data "2024-01-01".data ↔
      toSec ⟨2024, 1, 1, 0, 0, 0⟩ ≤ toSec ⟨2024, 1, 1, 12, 0, 0⟩ ∧
        toSec ⟨2024, 1, 1, 12, 0, 0⟩ ≤ toSec ⟨2024, 1, 1, 23, 59, 59⟩) ∧
    get_articles_by_date_range [tRowQ] "bad-date".data "2024-01-01".data = [] := by
  constructor
  · exact ((c7_query_by_date_range [tRowQ] "2024-01-01".data "2024-01-01".data).2
      2024 1 1 2024 1 1 (by decide) (by decide)).2 tRowQ ⟨2024, 1, 1, 12, 0, 0⟩
      (by simp) rfl (by decide) (by decide) (by decide) (by decide)
  · exact (c7_query_by_date_range [tRowQ] "bad-date".data "2024-01-01".data).1
      (Or.inl (by decide))

/-- C8: Per-article atomicity — processing one article either appends
exactly one new row and returns true, or returns false with the table
unchanged; it succeeds exactly when the URL is fresh, extraction

succeeded, the date filter passes, and the INSERT does not fault. -/
theorem c8_atomicity (st : List Row) (url source : Str) (extracted : Option Draft)
    (dr : Option (DT × DT)) (ok : Bool) (now : DT) :
    (((process_article st url source extracted dr ok now).1 = false ∧
        (process_article st url source extracted dr ok now).2 = st) ∨
      (∃ a, extracted = some a ∧
        process_article st url source extracted dr ok now =
          (true, st ++ [mkRow url source a now]))) ∧
    ((process_article st url source extracted dr ok now).1 = true ↔
      (∀ r ∈ st, r.url ≠ url) ∧ (∃ a, extracted = some a ∧ inRangeOpt dr a = true)
        ∧ ok = true) :=
  process_article_spec st url source extracted dr ok now

/-- C8 witness: a failing extraction (fetch/extraction failure) leaves the
table unchanged and returns false; a successful one returns true. -/
theorem c8_witness :
    ((process_article [tRow] tUrl "CNBC".data none none true tNow).1 = false ∧
      (process_article [tRow] tUrl "CNBC".data none none true tNow).2 = [tRow]) ∧
    (process_article [] tUrl "CNBC".data (some tDraft) none true tNow).1 = true := by
  constructor
  · rcases (c8_atomicity [tRow] tUrl "CNBC".data none none true tNow).1 with h | ⟨a, ha, _⟩
    · exact h
    · exact absurd ha (by simp)
  · exact (c8_atomicity [] tUrl "CNBC".data (some tDraft) none true tNow).2.mpr
      ⟨by simp, ⟨tDraft, rfl, rfl⟩, rfl⟩

/-- C9 counterexample: searching the LIKE-wildcard term `a_c` returns an
article titled `abc` even though `a_c` is not a substring (even
case-insensitively) of its title, content, or summary — the bound pattern
`%a_c%` is interpreted with LIKE wildcard semantics, not as a literal
substring. -/
theorem c9_counterexample :
    (search_by_term ⟨[tRowS], []⟩ "a_c".data tNow).2 = [tRowS] ∧
    containsSeq (lowerStr tRowS.title) (lowerStr "a_c".data) = false ∧
    containsSeq (lowerStr tRowS.content) (lowerStr "a_c".data) = false ∧
    containsSeq (lowerStr tRowS.summary) (lowerStr "a_c".data) = false := by
  refine ⟨?_, by decide, by decide, by decide⟩
  have hm : rowMatchesTerm "a_c".data tRowS = true := by
    simp [rowMatchesTerm, termPat, tRowS, likeMatch, charLikeEq]
  show sortPubDesc ([tRowS].filter (rowMatchesTerm "a_c".data)) = [tRowS]
  rw [List.filter_cons_of_pos hm]
  rfl

/-- C9 (amended): every search records/overwrites the term's row with the
formatted current UTC time and leaves the articles table and all other
search-term rows unchanged; the results are exactly the stored articles
accepted by SQLite LIKE on `%term%` against title, content, or summary —
which, for terms free of the LIKE wildcards `%` and `_`, is exactly
ASCII-case-insensitive substring containment — ordered by publish_date
descending (newest publish instant first for formatted valid instants). -/
theorem c9_search_side_effect (db : DB) (term : Str) (now : DT) :
    (search_by_term db term now).1.articles = db.articles ∧
    lookupTerm (search_by_term db term now).1.search_terms term = some (fmtDT now) ∧
    (∀ t2, t2 ≠ term →
      lookupTerm (search_by_term db term now).1.search_terms t2 =
        lookupTerm db.search_terms t2) ∧
    (∀ r, r ∈ (search_by_term db term now).2 ↔
      r ∈ db.articles ∧ rowMatchesTerm term r = true) ∧
    ((∀ c ∈ term, ¬c = '%' ∧ ¬c = '_') →
      ∀ r, r ∈ (search_by_term db term now).2 ↔
        r ∈ db.articles ∧
          (containsSeq (lowerStr r.title) (lowerStr term) = true ∨
            containsSeq (lowerStr r.content) (lowerStr term) = true ∨
            containsSeq (lowerStr r.summary) (lowerStr term) = true)) ∧
    List.Pairwise (fun a b => lexLe b.publish_date a.publish_date = true)
      (search_by_term db term now).2 ∧
    List.Pairwise (fun a b => ∀ ta tb, validDT ta = true → validDT tb = true →
      a.publish_date = fmtDT ta → b.publish_date = fmtDT tb → toSec tb ≤ toSec ta)
      (search_by_term db term now).2 := by
  have hres : (search_by_term db term now).2 =
      sortPubDesc (db.articles.filter (rowMatchesTerm term)) := rfl
  have hmem : ∀ r, r ∈ (search_by_term db term now).2 ↔
      r ∈ db.articles ∧ rowMatchesTerm term r = true := by
    intro r
    rw [hres, mem_sortPubDesc, List.mem_filter]
  have hpw : List.Pairwise (fun a b => lexLe b.publish_date a.publish_date = true)
      (search_by_term db term now).2 := by
    rw [hres]
    exact pairwise_sortPubDesc _
  refine ⟨rfl, lookupTerm_upsert_self db.search_terms term (fmtDT now),
    fun t2 h => lookupTerm_upsert_other db.search_terms term (fmtDT now) t2 h,
    hmem, ?_, hpw, ?_⟩
  · intro hw r
    rw [hmem r]
    have hiff : rowMatchesTerm term r = true ↔
        (containsSeq (lowerStr r.title) (lowerStr term) = true ∨
          containsSeq (lowerStr r.content) (lowerStr term) = true ∨
          containsSeq (lowerStr r.summary) (lowerStr term) = true) := by
      unfold rowMatchesTerm
      simp only [Bool.or_eq_true]
      rw [likeMatch_termPat_iff hw, likeMatch_termPat_iff hw, likeMatch_termPat_iff hw]
      exact or_assoc
    rw [hiff]
  · refine hpw.imp ?_
    intro a b h ta tb hva hvb hpa hpb
    rw [hpa, hpb] at h
    exact (fmt_le_iff hvb hva).mp h

/-- C9 witness: a wildcard-free search term matches by case-insensitive
substring containment, and the articles table is untouched. -/
theorem c9_witness :
    (search_by_term ⟨[tRowS], []⟩ "ABC".data tNow).1.articles = [tRowS] ∧
    lookupTerm (search_by_term ⟨[tRowS], []⟩ "ABC".data tNow).1.search_terms
      "ABC".data = some (fmtDT tNow) ∧
    (tRowS ∈ (search_by_term ⟨[tRowS], []⟩ "ABC".data tNow).2 ↔
      tRowS ∈ [tRowS] ∧
        (containsSeq (lowerStr tRowS.title) (lowerStr "ABC".data) = true ∨
          containsSeq (lowerStr tRowS.content) (lowerStr "ABC".data) = true ∨
          containsSeq (lowerStr tRowS.summary) (lowerStr "ABC".data) = true)) := by
  have h := c9_search_side_effect ⟨[tRowS], []⟩ "ABC".data tNow
  exact ⟨h.1, h.2.1, h.2.2.2.2.1 (by decide) tRowS⟩

/-- C10: Timestamp format invariant — formatted timestamps have the fixed
zero-padded `YYYY-MM-DD HH:MM:SS` shape, and on (4-digit-year) valid
instants the byte-order string comparison used by the queries coincides
exactly with chronological order; the rows built by `process_article` and
the `last_search` value recorded by `search_by_term` carry exactly such
formatted timestamps. -/
theorem c10_timestamp_order (t t1 t2 : DT) :
    (validDT t = true → isCanonicalTs (fmtDT t) = true) ∧
    (validDT t1 = true → validDT t2 = true → 1000 ≤ t1.y → 1000 ≤ t2.y →
      (lexLe (fmtDT t1) (fmtDT t2) = true ↔ toSec t1 ≤ toSec t2)) ∧
    (∀ (url source : Str) (a : Draft),
      (mkRow url source a t).publish_date = fmtDT a.publish_date ∧
      (mkRow url source a t).retrieved_date = fmtDT t ∧
      isCanonicalTs (mkRow url source a t).retrieved_date = true ∧
      isCanonicalTs (mkRow url source a t).publish_date = true) ∧
    (∀ (db : DB) (term : Str),
      lookupTerm (search_by_term db term t).1.search_terms term = some (fmtDT t) ∧
      isCanonicalTs (fmtDT t) = true) := by
  refine ⟨fun _ => fmt_isCanonical t, fun hv1 hv2 _ _ => fmt_le_iff hv1 hv2, ?_, ?_⟩
  · intro url source a
    exact ⟨rfl, rfl, fmt_isCanonical t, fmt_isCanonical a.publish_date⟩
  · intro db term
    exact ⟨lookupTerm_upsert_self db.search_terms term (fmtDT t), fmt_isCanonical t⟩

/-- C10 witness: the reference instant formats canonically, and the string
order of two concrete formatted timestamps matches their instant order. -/
theorem c10_witness :
    isCanonicalTs (fmtDT tNow) = true ∧
    (lexLe (fmtDT ⟨2024, 1, 1, 12, 0, 0⟩) (fmtDT ⟨2024, 1, 2, 3, 0, 0⟩) = true ↔
      toSec ⟨2024, 1, 1, 12, 0, 0⟩ ≤ toSec ⟨2024, 1, 2, 3, 0, 0⟩) := by
  constructor
  · exact (c10_timestamp_order tNow tNow tNow).1 (by decide)
  · exact (c10_timestamp_order tNow ⟨2024, 1, 1, 12, 0, 0⟩ ⟨2024, 1, 2, 3, 0, 0⟩).2.1
      (by decide) (by decide) (by decide) (by decide)
